import Mathlib

/-!
# Verification of the llemecode core against its specification

A shallow embedding of the parts of the `LaPingvino/llemecode` repository that
the specification's claims are about:

* the dynamic JSON value model used for tool arguments (`encoding/json`
  values are modelled by `JValue`; `json.Marshal` by `encVal`, with Go's
  default HTML escaping; `json.Unmarshal` into `interface{}` by `jsonParse`,
  restricted to integral JSON numbers),
* Go string helpers (`strings.Contains`, `strings.TrimSpace`,
  `strings.Fields`, `strings.Split`, `strings.ReplaceAll`),
* the `path/filepath` fragment used by the permission gate
  (`Clean`, `Abs`, `Rel`, `Match` on Unix),
* the permission gate (`internal/tools/permissions.go`),
* the shell tool (`internal/tools/bash.go`) and the custom command tool,
* the configuration capability table (`internal/config/config.go`),
* the agent loop and its three fallback tool-call parsers (`internal/agent`),
* the capability detector (`internal/benchmark`),
* the MCP tool wrapper and client (`internal/mcp/tool_wrapper.go`).

Strings are modelled as `List Char`; Go byte-strings contain valid UTF-8 in
every execution path considered here, so character sequences are a faithful
view. Effectful collaborators (the HTTP backend, the subprocess executor, the
permission prompt, the MCP transport) are modelled as explicit oracle
functions passed to the embedded code, and the embeddings are instrumented to
record which collaborator calls were made, so that "the underlying tool is
never invoked" becomes a provable statement.
-/

namespace Llemecode

/-- Dynamic JSON values, the model of Go's `map[string]interface{}` /
`interface{}` universe used for tool arguments. Objects are ordered field
lists (Go maps are unordered; ordering is an artefact of the embedding and
lookups below use Go's last-write-wins semantics for duplicate keys). JSON
numbers are modelled as integers: every number appearing in the repository's
own data (tool arguments, schemas) is integral, and Go's `float64` round trip
is itself lossy outside that range. -/
inductive JValue where
  | jnull
  | jbool (b : Bool)
  | jnum (n : Int)
  | jstr (s : List Char)
  | jarr (elems : List JValue)
  | jobj (fields : List (List Char × JValue))
deriving Repr

mutual

/-- Size measure for fuel accounting in the JSON parser proofs. -/
def jsize : JValue → Nat
  | .jnull => 1
  | .jbool _ => 1
  | .jnum _ => 1
  | .jstr _ => 1
  | .jarr xs => 1 + jsizeList xs
  | .jobj fs => 1 + jsizeFields fs

def jsizeList : List JValue → Nat
  | [] => 0
  | x :: xs => jsize x + jsizeList xs

def jsizeFields : List (List Char × JValue) → Nat
  | [] => 0
  | (_, v) :: fs => jsize v + jsizeFields fs

end

theorem jsize_pos (v : JValue) : 1 ≤ jsize v := by
  cases v <;> simp [jsize]

/-- JSON whitespace (`encoding/json` skips exactly these). -/
def isWsChar (c : Char) : Bool :=
  c = ' ' || c = '\t' || c = '\n' || c = '\r'

/-- Lower-case hexadecimal digit, as Go's `encoding/json` emits in `\u00xx`
escapes. -/
def hexDigit (n : Nat) : Char :=
  if n < 10 then Char.ofNat (48 + n) else Char.ofNat (87 + n)

/-- Value of a hexadecimal digit character, `none` when not a hex digit. -/
def hexVal (c : Char) : Option Nat :=
  if '0' ≤ c ∧ c ≤ '9' then some (c.toNat - 48)
  else if 'a' ≤ c ∧ c ≤ 'f' then some (c.toNat - 87)
  else if 'A' ≤ c ∧ c ≤ 'F' then some (c.toNat - 55)
  else none

/-- Escaping of one character inside a JSON string, after Go's
`encoding/json` marshaller: quotes, backslashes and the common control
characters get two-character escapes, `<`, `>`, `&` get the HTML-safe
`\u00xx` escapes (Go's default `SetEscapeHTML(true)` behaviour), remaining
control characters get `\u00xx`, and everything else is emitted as-is. -/
def escapeChar (c : Char) : List Char :=
  if c = '"' then ['\\', '"']
  else if c = '\\' then ['\\', '\\']
  else if c = '\n' then ['\\', 'n']
  else if c = '\r' then ['\\', 'r']
  else if c = '\t' then ['\\', 't']
  else if c = '<' then ['\\', 'u', '0', '0', '3', 'c']
  else if c = '>' then ['\\', 'u', '0', '0', '3', 'e']
  else if c = '&' then ['\\', 'u', '0', '0', '2', '6']
  else if c.toNat < 32 then
    ['\\', 'u', '0', '0', hexDigit (c.toNat / 16), hexDigit (c.toNat % 16)]
  else [c]

def escapeStr (s : List Char) : List Char :=
  s.flatMap escapeChar

/-- Decimal digits of a natural number, most significant first. -/
def natRepr (n : Nat) : List Char :=
  if n < 10 then [Nat.digitChar n]
  else natRepr (n / 10) ++ [Nat.digitChar (n % 10)]
decreasing_by exact Nat.div_lt_self (by omega) (by omega)

/-- Go's rendering of an integral number (`json.Marshal` of an integral
`float64` prints it without fraction or exponent). -/
def intRepr (i : Int) : List Char :=
  if i < 0 then '-' :: natRepr i.natAbs else natRepr i.toNat

/-- A JSON string literal with both quotes. -/
def encStr (s : List Char) : List Char :=
  '"' :: (escapeStr s ++ ['"'])

mutual

/-- Compact JSON encoding of a value, mirroring Go's `json.Marshal` (no
interstitial whitespace, HTML escaping on). -/
def encVal : JValue → List Char
  | .jnull => ['n', 'u', 'l', 'l']
  | .jbool true => ['t', 'r', 'u', 'e']
  | .jbool false => ['f', 'a', 'l', 's', 'e']
  | .jnum n => intRepr n
  | .jstr s => encStr s
  | .jarr xs => '[' :: encElems xs
  | .jobj fs => '{' :: encMembers fs

/-- Array elements followed by the closing bracket. -/
def encElems : List JValue → List Char
  | [] => [']']
  | [x] => encVal x ++ [']']
  | x :: y :: xs => encVal x ++ ',' :: encElems (y :: xs)

/-- Object members followed by the closing brace. -/
def encMembers : List (List Char × JValue) → List Char
  | [] => ['}']
  | [(k, v)] => encStr k ++ ':' :: (encVal v ++ ['}'])
  | (k, v) :: m :: fs => encStr k ++ ':' :: (encVal v ++ ',' :: encMembers (m :: fs))

end

/-- Skip JSON whitespace. -/
def skipWs (l : List Char) : List Char :=
  l.dropWhile isWsChar

/-- Consume a maximal run of decimal digits, accumulating their value. -/
def parseDigits : List Char → Nat → Nat × List Char
  | c :: t, acc =>
    if c.isDigit then parseDigits t (acc * 10 + (c.toNat - 48)) else (acc, c :: t)
  | [], acc => (acc, [])

/-- A decimal natural number token (at least one digit required). -/
def parseNatTok : List Char → Option (Nat × List Char)
  | c :: t => if c.isDigit then some (parseDigits (c :: t) 0) else none
  | [] => none

/-- An optionally negated integral number token. The model of Go's JSON
number grammar is restricted to integers (see `JValue`). -/
def parseIntTok : List Char → Option (Int × List Char)
  | [] => none
  | c :: t =>
    if c = '-' then (parseNatTok t).map fun p => (-(p.1 : Int), p.2)
    else (parseNatTok (c :: t)).map fun p => ((p.1 : Int), p.2)

/-- The value of a four-digit hexadecimal escape, `none` when any digit is
bad. -/
def hex4 (a b c d : Char) : Option Nat :=
  (hexVal a).bind fun x =>
    (hexVal b).bind fun y =>
      (hexVal c).bind fun z =>
        (hexVal d).map fun w => ((x * 16 + y) * 16 + z) * 16 + w

/-- The body of a JSON string after the opening quote, undoing the escapes
of `escapeChar` (plus the remaining standard JSON escapes). Returns the
decoded characters and the input following the closing quote. -/
def parseStrBody : List Char → Option (List Char × List Char)
  | [] => none
  | c :: rest =>
    if c = '"' then some ([], rest)
    else if c = '\\' then
      match rest with
      | [] => none
      | e :: r2 =>
        if e = '"' then (parseStrBody r2).map fun p => ('"' :: p.1, p.2)
        else if e = '\\' then (parseStrBody r2).map fun p => ('\\' :: p.1, p.2)
        else if e = '/' then (parseStrBody r2).map fun p => ('/' :: p.1, p.2)
        else if e = 'n' then (parseStrBody r2).map fun p => ('\n' :: p.1, p.2)
        else if e = 'r' then (parseStrBody r2).map fun p => ('\r' :: p.1, p.2)
        else if e = 't' then (parseStrBody r2).map fun p => ('\t' :: p.1, p.2)
        else if e = 'b' then (parseStrBody r2).map fun p => ('\x08' :: p.1, p.2)
        else if e = 'f' then (parseStrBody r2).map fun p => ('\x0c' :: p.1, p.2)
        else if e = 'u' then
          match r2 with
          | h1 :: h2 :: h3 :: h4 :: r3 =>
            (hex4 h1 h2 h3 h4).bind fun d =>
              (parseStrBody r3).map fun p => (Char.ofNat d :: p.1, p.2)
          | _ => none
        else none
    else (parseStrBody rest).map fun p => (c :: p.1, p.2)

mutual

/-- Fueled JSON value parser, the model of `encoding/json`'s `Unmarshal`
into `interface{}` (numbers restricted to integers). The fuel only bounds
the nesting recursion; callers pass at least the input length plus one, which
the round-trip lemmas show is always enough for parsing encoded values. The
parser is split into one function per intermediate state so that every
`match` scrutinises a variable. -/
def parseValueF : Nat → List Char → Option (JValue × List Char)
  | fuel, l => parseValueW fuel (skipWs l)
termination_by fuel _ => (fuel, 1)

/-- Dispatch on the first significant character of a value. -/
def parseValueW : Nat → List Char → Option (JValue × List Char)
  | 0, _ => none
  | _ + 1, [] => none
  | fuel + 1, c :: t =>
    if c = 'n' then
      match t with
      | 'u' :: 'l' :: 'l' :: r => some (.jnull, r)
      | _ => none
    else if c = 't' then
      match t with
      | 'r' :: 'u' :: 'e' :: r => some (.jbool true, r)
      | _ => none
    else if c = 'f' then
      match t with
      | 'a' :: 'l' :: 's' :: 'e' :: r => some (.jbool false, r)
      | _ => none
    else if c = '"' then
      (parseStrBody t).map fun p => (.jstr p.1, p.2)
    else if c = '[' then
      (parseElemsF fuel t).map fun p => (.jarr p.1, p.2)
    else if c = '{' then
      (parseMembersF fuel t).map fun p => (.jobj p.1, p.2)
    else
      (parseIntTok (c :: t)).map fun p => (.jnum p.1, p.2)
termination_by fuel _ => (fuel, 0)

/-- Array tail after `[`: either an immediate `]` or an element loop. -/
def parseElemsF : Nat → List Char → Option (List JValue × List Char)
  | fuel, l => parseElemsW fuel (skipWs l)
termination_by fuel _ => (fuel, 7)

/-- Array tail dispatch after whitespace. -/
def parseElemsW : Nat → List Char → Option (List JValue × List Char)
  | fuel, [] => parseElemsLoopF fuel []
  | fuel, c :: r => if c = ']' then some ([], r) else parseElemsLoopF fuel (c :: r)
termination_by fuel _ => (fuel, 6)

/-- One array element, then a separator handled by `parseElemsTailF`. -/
def parseElemsLoopF : Nat → List Char → Option (List JValue × List Char)
  | 0, _ => none
  | fuel + 1, l => do
    let (v, r) ← parseValueF (fuel + 1) l
    parseElemsTailF fuel v (skipWs r)
termination_by fuel _ => (fuel, 4)

/-- After one element: `,` continues the loop, `]` closes the array. -/
def parseElemsTailF : Nat → JValue → List Char → Option (List JValue × List Char)
  | _, _, [] => none
  | fuel, v, c :: r2 =>
    if c = ',' then (parseElemsLoopF fuel r2).map fun p => (v :: p.1, p.2)
    else if c = ']' then some ([v], r2)
    else none
termination_by fuel _ _ => (fuel, 5)

/-- Object tail after `{`: either an immediate `}` or a member loop. -/
def parseMembersF : Nat → List Char → Option (List (List Char × JValue) × List Char)
  | fuel, l => parseMembersW fuel (skipWs l)
termination_by fuel _ => (fuel, 7)

/-- Object tail dispatch after whitespace. -/
def parseMembersW : Nat → List Char → Option (List (List Char × JValue) × List Char)
  | fuel, [] => parseMembersLoopF fuel []
  | fuel, c :: r => if c = '}' then some ([], r) else parseMembersLoopF fuel (c :: r)
termination_by fuel _ => (fuel, 6)

/-- One `"key": value` member; the key is read by `parseMembersKeyF`. -/
def parseMembersLoopF : Nat → List Char → Option (List (List Char × JValue) × List Char)
  | 0, _ => none
  | fuel + 1, l => parseMembersKeyF (fuel + 1) (skipWs l)
termination_by fuel _ => (fuel, 4)

/-- A member's quoted key. -/
def parseMembersKeyF : Nat → List Char → Option (List (List Char × JValue) × List Char)
  | _, [] => none
  | fuel, c :: t =>
    if c = '"' then do
      let (k, r) ← parseStrBody t
      parseMembersColonF fuel k (skipWs r)
    else none
termination_by fuel _ => (fuel, 3)

/-- The `:` between a member's key and value, then the value itself. -/
def parseMembersColonF : Nat → List Char → List Char →
    Option (List (List Char × JValue) × List Char)
  | 0, _, _ => none
  | _ + 1, _, [] => none
  | fuel + 1, k, c :: r2 =>
    if c = ':' then do
      let (v, r3) ← parseValueF (fuel + 1) r2
      parseMembersTailF fuel k v (skipWs r3)
    else none
termination_by fuel _ _ => (fuel, 2)

/-- After one member: `,` continues the loop, `}` closes the object. -/
def parseMembersTailF : Nat → List Char → JValue → List Char →
    Option (List (List Char × JValue) × List Char)
  | _, _, _, [] => none
  | fuel, k, v, c :: r4 =>
    if c = ',' then (parseMembersLoopF fuel r4).map fun p => ((k, v) :: p.1, p.2)
    else if c = '}' then some ([(k, v)], r4)
    else none
termination_by fuel _ _ _ => (fuel, 5)

end

/-- Model of `json.Unmarshal(data, &v)` for `v : interface{}`: parse one
value and require only whitespace after it. -/
def jsonParse (l : List Char) : Option JValue :=
  (parseValueF (l.length + 1) l).bind fun p => if skipWs p.2 = [] then some p.1 else none

/-- Model of `json.Unmarshal(data, &m)` for `m : map[string]interface{}`:
like `jsonParse` but failing unless the document is an object. -/
def jsonParseObj (l : List Char) : Option (List (List Char × JValue)) :=
  (jsonParse l).bind fun v =>
    match v with
    | .jobj fs => some fs
    | _ => none

/-- Go map lookup on the ordered-field model: last write wins, as
`encoding/json` keeps the last duplicate key. -/
def jlookup (fs : List (List Char × JValue)) (k : List Char) : Option JValue :=
  fs.foldl (fun acc f => if f.1 = k then some f.2 else acc) none

/-! ## Round trip of the JSON codec

`jsonParse` recovers every value `encVal` emits. These lemmas back the
dialect round-trip claims about the agent's fallback tool-call parsers. -/

theorem skipWs_cons {c : Char} (l : List Char) (h : isWsChar c = false) :
    skipWs (c :: l) = c :: l := by
  simp [skipWs, List.dropWhile, h]

/-- The character after an encoded number must not be a digit, or the number
token would absorb it. Every context `encVal` produces satisfies this. -/
def headNotDigit : List Char → Prop
  | [] => True
  | c :: _ => c.isDigit = false

theorem digitChar_toNat {n : Nat} (h : n < 10) : (Nat.digitChar n).toNat = 48 + n := by
  interval_cases n <;> decide

theorem digitChar_isDigit {n : Nat} (h : n < 10) : (Nat.digitChar n).isDigit = true := by
  interval_cases n <;> decide

theorem natRepr_head (n : Nat) : ∃ c t, natRepr n = c :: t ∧ c.isDigit = true := by
  by_cases h : n < 10
  · exact ⟨Nat.digitChar n, [], by rw [natRepr, if_pos h], digitChar_isDigit h⟩
  · obtain ⟨c, t, hct, hd⟩ := natRepr_head (n / 10)
    refine ⟨c, t ++ [Nat.digitChar (n % 10)], ?_, hd⟩
    rw [natRepr, if_neg h, hct]
    simp
termination_by n
decreasing_by exact Nat.div_lt_self (by omega) (by omega)

theorem parseDigits_natRepr (n : Nat) :
    ∀ rest acc, parseDigits (natRepr n ++ rest) acc =
      parseDigits rest (acc * 10 ^ (natRepr n).length + n) := by
  intro rest acc
  by_cases h : n < 10
  · rw [natRepr, if_pos h]
    rw [List.singleton_append, parseDigits, if_pos (digitChar_isDigit h), digitChar_toNat h]
    congr 1
    rw [List.length_singleton, pow_one]
    omega
  · rw [natRepr, if_neg h]
    rw [List.append_assoc, List.singleton_append, parseDigits_natRepr (n / 10)]
    rw [parseDigits, if_pos (digitChar_isDigit (by omega : n % 10 < 10)),
      digitChar_toNat (by omega : n % 10 < 10)]
    congr 1
    rw [List.length_append, List.length_singleton, pow_succ, ← Nat.mul_assoc, Nat.add_mul]
    generalize acc * 10 ^ (natRepr (n / 10)).length * 10 = y
    omega
termination_by n
decreasing_by exact Nat.div_lt_self (by omega) (by omega)

theorem parseDigits_stop (n : Nat) (rest : List Char) (h : headNotDigit rest) :
    parseDigits rest n = (n, rest) := by
  cases rest with
  | nil => rw [parseDigits]
  | cons c t =>
    rw [parseDigits, if_neg]
    simp [headNotDigit] at h
    simp [h]

theorem parseNatTok_natRepr (n : Nat) (rest : List Char) (h : headNotDigit rest) :
    parseNatTok (natRepr n ++ rest) = some (n, rest) := by
  obtain ⟨c, t, hct, hd⟩ := natRepr_head n
  rw [hct, List.cons_append, parseNatTok, if_pos hd, ← List.cons_append, ← hct,
    parseDigits_natRepr, parseDigits_stop _ _ h]
  simp

theorem digit_ne_dash {c : Char} (h : c.isDigit = true) : c ≠ '-' := by
  rintro rfl
  exact absurd h (by decide)

theorem parseIntTok_intRepr (i : Int) (rest : List Char) (h : headNotDigit rest) :
    parseIntTok (intRepr i ++ rest) = some (i, rest) := by
  rw [intRepr]
  by_cases hi : i < 0
  · rw [if_pos hi, List.cons_append, parseIntTok, if_pos rfl, parseNatTok_natRepr _ _ h]
    simp only [Option.map_some']
    congr 2
    omega
  · rw [if_neg hi]
    obtain ⟨c, t, hct, hd⟩ := natRepr_head i.toNat
    rw [hct, List.cons_append, parseIntTok, if_neg (digit_ne_dash hd),
      ← List.cons_append, ← hct, parseNatTok_natRepr _ _ h]
    simp only [Option.map_some']
    congr 2
    omega

theorem hexVal_hexDigit {d : Nat} (h : d < 16) : hexVal (hexDigit d) = some d := by
  interval_cases d <;> decide

theorem parseStrBody_quote (rest : List Char) : parseStrBody ('"' :: rest) = some ([], rest) := by
  rw [parseStrBody.eq_def]
  simp +decide only [if_true, if_false]

theorem parseStrBody_escq (r2 : List Char) :
    parseStrBody ('\\' :: '"' :: r2) = (parseStrBody r2).map fun p => ('"' :: p.1, p.2) := by
  rw [parseStrBody.eq_def]
  simp +decide only [if_true, if_false]

theorem parseStrBody_escb (r2 : List Char) :
    parseStrBody ('\\' :: '\\' :: r2) = (parseStrBody r2).map fun p => ('\\' :: p.1, p.2) := by
  rw [parseStrBody.eq_def]
  simp +decide only [if_true, if_false]

theorem parseStrBody_escn (r2 : List Char) :
    parseStrBody ('\\' :: 'n' :: r2) = (parseStrBody r2).map fun p => ('\n' :: p.1, p.2) := by
  rw [parseStrBody.eq_def]
  simp +decide only [if_true, if_false]

theorem parseStrBody_escr (r2 : List Char) :
    parseStrBody ('\\' :: 'r' :: r2) = (parseStrBody r2).map fun p => ('\r' :: p.1, p.2) := by
  rw [parseStrBody.eq_def]
  simp +decide only [if_true, if_false]

theorem parseStrBody_esct (r2 : List Char) :
    parseStrBody ('\\' :: 't' :: r2) = (parseStrBody r2).map fun p => ('\t' :: p.1, p.2) := by
  rw [parseStrBody.eq_def]
  simp +decide only [if_true, if_false]

theorem parseStrBody_escu (h1 h2 h3 h4 : Char) (r3 : List Char) :
    parseStrBody ('\\' :: 'u' :: h1 :: h2 :: h3 :: h4 :: r3) =
      (hex4 h1 h2 h3 h4).bind fun d =>
        (parseStrBody r3).map fun p => (Char.ofNat d :: p.1, p.2) := by
  rw [parseStrBody.eq_def]
  simp +decide only [if_true, if_false]

theorem parseStrBody_raw (c : Char) (rest : List Char) (h1 : ¬c = '"') (h2 : ¬c = '\\') :
    parseStrBody (c :: rest) = (parseStrBody rest).map fun p => (c :: p.1, p.2) := by
  rw [parseStrBody.eq_def]
  simp only []
  rw [if_neg h1, if_neg h2]

theorem parseStrBody_escape (s : List Char) :
    ∀ rest, parseStrBody (escapeStr s ++ ('"' :: rest)) = some (s, rest) := by
  intro rest
  induction s with
  | nil =>
    show parseStrBody ([].flatMap escapeChar ++ '"' :: rest) = some ([], rest)
    rw [List.flatMap_nil, List.nil_append, parseStrBody_quote]
  | cons c s' ih =>
    have hesc : escapeStr (c :: s') = escapeChar c ++ escapeStr s' := by
      simp [escapeStr]
    rw [hesc, List.append_assoc]
    rw [escapeChar]
    by_cases h1 : c = '"'
    · subst h1
      rw [if_pos rfl, List.cons_append, List.cons_append, List.nil_append,
        parseStrBody_escq, ih]
      rfl
    rw [if_neg h1]
    by_cases h2 : c = '\\'
    · subst h2
      rw [if_pos rfl, List.cons_append, List.cons_append, List.nil_append,
        parseStrBody_escb, ih]
      rfl
    rw [if_neg h2]
    by_cases h3 : c = '\n'
    · subst h3
      rw [if_pos rfl, List.cons_append, List.cons_append, List.nil_append,
        parseStrBody_escn, ih]
      rfl
    rw [if_neg h3]
    by_cases h4 : c = '\r'
    · subst h4
      rw [if_pos rfl, List.cons_append, List.cons_append, List.nil_append,
        parseStrBody_escr, ih]
      rfl
    rw [if_neg h4]
    by_cases h5 : c = '\t'
    · subst h5
      rw [if_pos rfl, List.cons_append, List.cons_append, List.nil_append,
        parseStrBody_esct, ih]
      rfl
    rw [if_neg h5]
    by_cases h6 : c = '<'
    · subst h6
      rw [if_pos rfl]
      simp only [List.cons_append, List.nil_append]
      rw [parseStrBody_escu, show hex4 '0' '0' '3' 'c' = some 60 from by decide, ih]
      rfl
    rw [if_neg h6]
    by_cases h7 : c = '>'
    · subst h7
      rw [if_pos rfl]
      simp only [List.cons_append, List.nil_append]
      rw [parseStrBody_escu, show hex4 '0' '0' '3' 'e' = some 62 from by decide, ih]
      rfl
    rw [if_neg h7]
    by_cases h8 : c = '&'
    · subst h8
      rw [if_pos rfl]
      simp only [List.cons_append, List.nil_append]
      rw [parseStrBody_escu, show hex4 '0' '0' '2' '6' = some 38 from by decide, ih]
      rfl
    rw [if_neg h8]
    by_cases h9 : c.toNat < 32
    · rw [if_pos h9]
      simp only [List.cons_append, List.nil_append]
      rw [parseStrBody_escu]
      rw [show hex4 '0' '0' (hexDigit (c.toNat / 16)) (hexDigit (c.toNat % 16)) =
          some (c.toNat) from by
        rw [hex4, show hexVal '0' = some 0 from by decide]
        rw [hexVal_hexDigit (show c.toNat / 16 < 16 by omega),
          hexVal_hexDigit (show c.toNat % 16 < 16 by omega)]
        simp only [Option.some_bind, Option.map_some']
        congr 1
        omega]
      rw [ih]
      simp only [Option.some_bind, Option.map_some']
      rw [Char.ofNat_toNat]
    · rw [if_neg h9]
      simp only [List.cons_append, List.nil_append]
      rw [parseStrBody_raw c _ h1 h2, ih]
      rfl

theorem isDigit_facts {c : Char} (h : c.isDigit = true) :
    isWsChar c = false ∧ c ≠ 'n' ∧ c ≠ 't' ∧ c ≠ 'f' ∧ c ≠ '"' ∧ c ≠ '[' ∧ c ≠ '{' ∧
      c ≠ ']' ∧ c ≠ '}' ∧ c ≠ ',' := by
  refine ⟨?_, ?_, ?_, ?_, ?_, ?_, ?_, ?_, ?_, ?_⟩
  · by_contra hws
    rw [Bool.not_eq_false] at hws
    simp only [isWsChar, Bool.or_eq_true, decide_eq_true_eq] at hws
    rcases hws with ((rfl | rfl) | rfl) | rfl <;> exact absurd h (by decide)
  all_goals (rintro rfl; exact absurd h (by decide))

/-! Manual unfolding equations for the fuel-indexed parser (its definitional
equations are awkward to use directly because the functions are compiled by
well-founded recursion). -/

theorem parseValueF_eq (fuel : Nat) (l : List Char) :
    parseValueF fuel l = parseValueW fuel (skipWs l) := by
  rw [parseValueF.eq_def]

theorem parseValueW_null (fuel : Nat) (r : List Char) :
    parseValueW (fuel + 1) ('n' :: 'u' :: 'l' :: 'l' :: r) = some (.jnull, r) := by
  rw [parseValueW.eq_def]
  simp +decide only [if_true, if_false]

theorem parseValueW_true (fuel : Nat) (r : List Char) :
    parseValueW (fuel + 1) ('t' :: 'r' :: 'u' :: 'e' :: r) = some (.jbool true, r) := by
  rw [parseValueW.eq_def]
  simp +decide only [if_true, if_false]

theorem parseValueW_false (fuel : Nat) (r : List Char) :
    parseValueW (fuel + 1) ('f' :: 'a' :: 'l' :: 's' :: 'e' :: r) = some (.jbool false, r) := by
  rw [parseValueW.eq_def]
  simp +decide only [if_true, if_false]

theorem parseValueW_str (fuel : Nat) (t : List Char) :
    parseValueW (fuel + 1) ('"' :: t) =
      (parseStrBody t).map fun p => (.jstr p.1, p.2) := by
  rw [parseValueW.eq_def]
  simp +decide only [if_true, if_false]

theorem parseValueW_arr (fuel : Nat) (t : List Char) :
    parseValueW (fuel + 1) ('[' :: t) =
      (parseElemsF fuel t).map fun p => (.jarr p.1, p.2) := by
  rw [parseValueW.eq_def]
  simp +decide only [if_true, if_false]

theorem parseValueW_obj (fuel : Nat) (t : List Char) :
    parseValueW (fuel + 1) ('{' :: t) =
      (parseMembersF fuel t).map fun p => (.jobj p.1, p.2) := by
  rw [parseValueW.eq_def]
  simp +decide only [if_true, if_false]

theorem parseValueW_digit (fuel : Nat) {c : Char} (t : List Char) (h : c.isDigit = true) :
    parseValueW (fuel + 1) (c :: t) =
      (parseIntTok (c :: t)).map fun p => (.jnum p.1, p.2) := by
  obtain ⟨-, h1, h2, h3, h4, h5, h6, -, -, -⟩ := isDigit_facts h
  rw [parseValueW.eq_def]
  simp only []
  rw [if_neg h1, if_neg h2, if_neg h3, if_neg h4, if_neg h5, if_neg h6]

theorem parseValueW_dash (fuel : Nat) (t : List Char) :
    parseValueW (fuel + 1) ('-' :: t) =
      (parseIntTok ('-' :: t)).map fun p => (.jnum p.1, p.2) := by
  rw [parseValueW.eq_def]
  simp +decide only [if_true, if_false]

theorem parseElemsF_eq (fuel : Nat) (l : List Char) :
    parseElemsF fuel l = parseElemsW fuel (skipWs l) := by
  rw [parseElemsF.eq_def]

theorem parseElemsW_close (fuel : Nat) (r : List Char) :
    parseElemsW fuel (']' :: r) = some ([], r) := by
  rw [parseElemsW.eq_def]
  simp +decide only [if_true, if_false]

theorem parseElemsW_go (fuel : Nat) {c : Char} (r : List Char) (h : c ≠ ']') :
    parseElemsW fuel (c :: r) = parseElemsLoopF fuel (c :: r) := by
  rw [parseElemsW.eq_def]
  simp only []
  rw [if_neg h]

theorem parseElemsLoopF_step (fuel : Nat) {l r : List Char} {v : JValue}
    (h : parseValueF (fuel + 1) l = some (v, r)) :
    parseElemsLoopF (fuel + 1) l = parseElemsTailF fuel v (skipWs r) := by
  rw [parseElemsLoopF.eq_def]
  simp only [h]
  rfl

theorem parseElemsTailF_comma (fuel : Nat) (v : JValue) (r2 : List Char) :
    parseElemsTailF fuel v (',' :: r2) =
      (parseElemsLoopF fuel r2).map fun p => (v :: p.1, p.2) := by
  rw [parseElemsTailF.eq_def]
  simp +decide only [if_true, if_false]

theorem parseElemsTailF_close (fuel : Nat) (v : JValue) (r2 : List Char) :
    parseElemsTailF fuel v (']' :: r2) = some ([v], r2) := by
  rw [parseElemsTailF.eq_def]
  simp +decide only [if_true, if_false]

theorem parseMembersF_eq (fuel : Nat) (l : List Char) :
    parseMembersF fuel l = parseMembersW fuel (skipWs l) := by
  rw [parseMembersF.eq_def]

theorem parseMembersW_close (fuel : Nat) (r : List Char) :
    parseMembersW fuel ('}' :: r) = some ([], r) := by
  rw [parseMembersW.eq_def]
  simp +decide only [if_true, if_false]

theorem parseMembersW_go (fuel : Nat) {c : Char} (r : List Char) (h : c ≠ '}') :
    parseMembersW fuel (c :: r) = parseMembersLoopF fuel (c :: r) := by
  rw [parseMembersW.eq_def]
  simp only []
  rw [if_neg h]

theorem parseMembersLoopF_step (fuel : Nat) (l : List Char) :
    parseMembersLoopF (fuel + 1) l = parseMembersKeyF (fuel + 1) (skipWs l) := by
  rw [parseMembersLoopF.eq_def]

theorem parseMembersKeyF_step (fuel : Nat) {t r k : List Char}
    (h : parseStrBody t = some (k, r)) :
    parseMembersKeyF fuel ('"' :: t) = parseMembersColonF fuel k (skipWs r) := by
  rw [parseMembersKeyF.eq_def]
  simp +decide only [if_true, if_false, h]
  rfl

theorem parseMembersColonF_step (fuel : Nat) {k r2 r3 : List Char} {v : JValue}
    (h : parseValueF (fuel + 1) r2 = some (v, r3)) :
    parseMembersColonF (fuel + 1) k (':' :: r2) = parseMembersTailF fuel k v (skipWs r3) := by
  rw [parseMembersColonF.eq_def]
  simp +decide only [if_true, if_false, h]
  rfl

theorem parseMembersTailF_comma (fuel : Nat) (k : List Char) (v : JValue) (r4 : List Char) :
    parseMembersTailF fuel k v (',' :: r4) =
      (parseMembersLoopF fuel r4).map fun p => ((k, v) :: p.1, p.2) := by
  rw [parseMembersTailF.eq_def]
  simp +decide only [if_true, if_false]

theorem parseMembersTailF_close (fuel : Nat) (k : List Char) (v : JValue) (r4 : List Char) :
    parseMembersTailF fuel k v ('}' :: r4) = some ([(k, v)], r4) := by
  rw [parseMembersTailF.eq_def]
  simp +decide only [if_true, if_false]

/-- The first character of any encoded value: never whitespace and never a
closing delimiter. -/
theorem encVal_head (v : JValue) :
    ∃ c t, encVal v = c :: t ∧ isWsChar c = false ∧ c ≠ ']' ∧ c ≠ '}' := by
  cases v with
  | jnull => exact ⟨'n', _, rfl, by decide, by decide, by decide⟩
  | jbool b =>
    cases b
    · exact ⟨'f', _, rfl, by decide, by decide, by decide⟩
    · exact ⟨'t', _, rfl, by decide, by decide, by decide⟩
  | jnum n =>
    show ∃ c t, intRepr n = c :: t ∧ _
    rw [intRepr]
    by_cases hn : n < 0
    · exact ⟨'-', _, by rw [if_pos hn], by decide, by decide, by decide⟩
    · rw [if_neg hn]
      obtain ⟨c, t, hct, hd⟩ := natRepr_head n.toNat
      obtain ⟨hws, -, -, -, -, -, -, h8, h9, -⟩ := isDigit_facts hd
      exact ⟨c, t, hct, hws, h8, h9⟩
  | jstr s => exact ⟨'"', _, rfl, by decide, by decide, by decide⟩
  | jarr xs => exact ⟨'[', _, rfl, by decide, by decide, by decide⟩
  | jobj fs => exact ⟨'{', _, rfl, by decide, by decide, by decide⟩

theorem jsize_le_jsizeList {x : JValue} {xs : List JValue} (h : x ∈ xs) :
    jsize x ≤ jsizeList xs := by
  induction xs with
  | nil => cases h
  | cons y ys ih =>
    rw [jsizeList]
    rcases List.mem_cons.mp h with rfl | hm
    · omega
    · have := ih hm
      omega

theorem jsize_le_jsizeFields {k : List Char} {v : JValue}
    {fs : List (List Char × JValue)} (h : (k, v) ∈ fs) : jsize v ≤ jsizeFields fs := by
  induction fs with
  | nil => cases h
  | cons f fs' ih =>
    obtain ⟨k', v'⟩ := f
    rw [jsizeFields]
    rcases List.mem_cons.mp h with heq | hm
    · obtain ⟨-, rfl⟩ := Prod.mk.injEq .. ▸ heq
      injection heq with h1 h2
      omega
    · have := ih hm
      omega

theorem jsize_jarr (xs : List JValue) : jsize (.jarr xs) = 1 + jsizeList xs := rfl

theorem jsize_jobj (fs : List (List Char × JValue)) :
    jsize (.jobj fs) = 1 + jsizeFields fs := rfl

theorem jsizeList_pos (x : JValue) (xs : List JValue) : 1 ≤ jsizeList (x :: xs) := by
  rw [jsizeList]
  have := jsize_pos x
  omega

/-- The element loop recovers every encoded nonempty array. -/
theorem parseElemsLoopF_encElems (x : JValue) (xs : List JValue)
    (ih : ∀ y, y ∈ x :: xs → ∀ rest fuel, jsize y ≤ fuel → headNotDigit rest →
      parseValueF fuel (encVal y ++ rest) = some (y, rest)) :
    ∀ rest fuel, jsizeList (x :: xs) ≤ fuel →
      parseElemsLoopF fuel (encElems (x :: xs) ++ rest) = some (x :: xs, rest) := by
  induction xs generalizing x with
  | nil =>
    intro rest fuel hsz
    obtain ⟨f, rfl⟩ : ∃ f, fuel = f + 1 :=
      ⟨fuel - 1, by have := jsizeList_pos x []; omega⟩
    have hx : parseValueF (f + 1) (encVal x ++ (']' :: rest)) = some (x, ']' :: rest) := by
      refine ih x (List.mem_cons_self ..) _ _ ?_ (show (']').isDigit = false by decide)
      rw [jsizeList, jsizeList] at hsz
      omega
    rw [show encElems [x] ++ rest = encVal x ++ (']' :: rest) from by
      rw [encElems]
      simp]
    rw [parseElemsLoopF_step f hx, skipWs_cons _ (by decide), parseElemsTailF_close]
  | cons y ys ihl =>
    intro rest fuel hsz
    obtain ⟨f, rfl⟩ : ∃ f, fuel = f + 1 :=
      ⟨fuel - 1, by have := jsizeList_pos x (y :: ys); omega⟩
    have hx : parseValueF (f + 1)
        (encVal x ++ (',' :: (encElems (y :: ys) ++ rest))) =
        some (x, ',' :: (encElems (y :: ys) ++ rest)) := by
      refine ih x (List.mem_cons_self ..) _ _ ?_ (show (',').isDigit = false by decide)
      rw [jsizeList] at hsz
      have := jsize_pos x
      omega
    rw [show encElems (x :: y :: ys) ++ rest =
        encVal x ++ (',' :: (encElems (y :: ys) ++ rest)) from by
      rw [encElems]
      simp]
    rw [parseElemsLoopF_step f hx, skipWs_cons _ (by decide), parseElemsTailF_comma]
    rw [ihl y (fun z hz => ih z (List.mem_cons_of_mem _ hz)) rest f ?hsz]
    · rfl
    case hsz =>
      rw [jsizeList] at hsz
      have := jsize_pos x
      omega

/-- The member loop recovers every encoded nonempty object. -/
theorem parseMembersLoopF_encMembers (g : List Char × JValue)
    (fs : List (List Char × JValue))
    (ih : ∀ k' v', (k', v') ∈ g :: fs → ∀ rest fuel, jsize v' ≤ fuel →
      headNotDigit rest → parseValueF fuel (encVal v' ++ rest) = some (v', rest)) :
    ∀ rest fuel, jsizeFields (g :: fs) ≤ fuel →
      parseMembersLoopF fuel (encMembers (g :: fs) ++ rest) = some (g :: fs, rest) := by
  induction fs generalizing g with
  | nil =>
    obtain ⟨k, v⟩ := g
    intro rest fuel hsz
    obtain ⟨f, rfl⟩ : ∃ f, fuel = f + 1 :=
      ⟨fuel - 1, by
        rw [jsizeFields] at hsz
        have := jsize_pos v
        omega⟩
    rw [show encMembers [(k, v)] ++ rest =
        '"' :: (escapeStr k ++ ('"' :: (':' :: (encVal v ++ ('}' :: rest))))) from by
      rw [encMembers, encStr]
      simp]
    have hv : parseValueF (f + 1) (encVal v ++ ('}' :: rest)) = some (v, '}' :: rest) := by
      refine ih k v (List.mem_cons_self ..) _ _ ?_ (show ('}').isDigit = false by decide)
      rw [jsizeFields, jsizeFields] at hsz
      omega
    rw [parseMembersLoopF_step, skipWs_cons _ (by decide),
      parseMembersKeyF_step _ (parseStrBody_escape k _), skipWs_cons _ (by decide),
      parseMembersColonF_step f hv, skipWs_cons _ (by decide), parseMembersTailF_close]
  | cons g2 fs' ihl =>
    obtain ⟨k, v⟩ := g
    intro rest fuel hsz
    obtain ⟨f, rfl⟩ : ∃ f, fuel = f + 1 :=
      ⟨fuel - 1, by
        rw [jsizeFields] at hsz
        have := jsize_pos v
        omega⟩
    rw [show encMembers ((k, v) :: g2 :: fs') ++ rest =
        '"' :: (escapeStr k ++ ('"' :: (':' :: (encVal v ++
          (',' :: (encMembers (g2 :: fs') ++ rest)))))) from by
      rw [encMembers, encStr]
      simp]
    have hv : parseValueF (f + 1)
        (encVal v ++ (',' :: (encMembers (g2 :: fs') ++ rest))) =
        some (v, ',' :: (encMembers (g2 :: fs') ++ rest)) := by
      refine ih k v (List.mem_cons_self ..) _ _ ?_ (show (',').isDigit = false by decide)
      rw [jsizeFields] at hsz
      omega
    rw [parseMembersLoopF_step, skipWs_cons _ (by decide),
      parseMembersKeyF_step _ (parseStrBody_escape k _), skipWs_cons _ (by decide),
      parseMembersColonF_step f hv, skipWs_cons _ (by decide), parseMembersTailF_comma]
    rw [ihl g2 (fun k' v' hm => ih k' v' (List.mem_cons_of_mem _ hm)) rest f ?hsz]
    · rfl
    case hsz =>
      rw [jsizeFields] at hsz
      have := jsize_pos v
      omega

/-- The fueled parser recovers every encoded value, for any fuel at least
the value's size and any continuation that does not begin with a digit. -/
theorem parseValueF_encVal (v : JValue) :
    ∀ rest fuel, jsize v ≤ fuel → headNotDigit rest →
      parseValueF fuel (encVal v ++ rest) = some (v, rest) := by
  intro rest fuel hsz hrest
  obtain ⟨f, rfl⟩ : ∃ f, fuel = f + 1 := ⟨fuel - 1, by have := jsize_pos v; omega⟩
  cases v with
  | jnull =>
    rw [show encVal .jnull ++ rest = 'n' :: 'u' :: 'l' :: 'l' :: rest from rfl,
      parseValueF_eq, skipWs_cons _ (by decide), parseValueW_null]
  | jbool b =>
    cases b
    · rw [show encVal (.jbool false) ++ rest = 'f' :: 'a' :: 'l' :: 's' :: 'e' :: rest from rfl,
        parseValueF_eq, skipWs_cons _ (by decide), parseValueW_false]
    · rw [show encVal (.jbool true) ++ rest = 't' :: 'r' :: 'u' :: 'e' :: rest from rfl,
        parseValueF_eq, skipWs_cons _ (by decide), parseValueW_true]
  | jnum n =>
    rw [show encVal (.jnum n) = intRepr n from rfl, parseValueF_eq]
    by_cases hn : n < 0
    · rw [show intRepr n = '-' :: natRepr n.natAbs from by rw [intRepr, if_pos hn],
        List.cons_append, skipWs_cons _ (by decide), parseValueW_dash,
        ← List.cons_append, ← show intRepr n = '-' :: natRepr n.natAbs from by
          rw [intRepr, if_pos hn],
        parseIntTok_intRepr n rest hrest]
      rfl
    · obtain ⟨c, t, hct, hd⟩ := natRepr_head n.toNat
      have hin : intRepr n = c :: t := by rw [intRepr, if_neg hn, hct]
      obtain ⟨hws, -⟩ := isDigit_facts hd
      rw [hin, List.cons_append, skipWs_cons _ hws, parseValueW_digit f _ hd,
        ← List.cons_append, ← hin, parseIntTok_intRepr n rest hrest]
      rfl
  | jstr s =>
    rw [show encVal (.jstr s) ++ rest = '"' :: (escapeStr s ++ ('"' :: rest)) from by
        rw [show encVal (.jstr s) = '"' :: (escapeStr s ++ ['"']) from rfl]
        simp,
      parseValueF_eq, skipWs_cons _ (by decide), parseValueW_str, parseStrBody_escape]
    rfl
  | jarr xs =>
    rw [show encVal (.jarr xs) ++ rest = '[' :: (encElems xs ++ rest) from by
        rw [show encVal (.jarr xs) = '[' :: encElems xs from rfl]
        rfl,
      parseValueF_eq, skipWs_cons _ (by decide), parseValueW_arr, parseElemsF_eq]
    cases xs with
    | nil =>
      rw [show encElems ([] : List JValue) ++ rest = ']' :: rest from by rw [encElems]; rfl,
        skipWs_cons _ (by decide), parseElemsW_close]
      rfl
    | cons x xs' =>
      obtain ⟨c, t, hct, hws, hcl, -⟩ := encVal_head x
      obtain ⟨S, hS⟩ : ∃ S, encElems (x :: xs') = encVal x ++ S := by
        cases xs' <;> exact ⟨_, by rw [encElems]⟩
      rw [hS, hct, List.cons_append, List.cons_append, skipWs_cons _ hws,
        parseElemsW_go _ _ hcl, ← List.cons_append, ← List.cons_append, ← hct, ← hS]
      rw [parseElemsLoopF_encElems x xs'
        (fun y hy rest' fuel' h1 h2 => parseValueF_encVal y rest' fuel' h1 h2) rest f ?hsz]
      · rfl
      case hsz =>
        simp only [jsize] at hsz
        omega
  | jobj fs =>
    rw [show encVal (.jobj fs) ++ rest = '{' :: (encMembers fs ++ rest) from by
        rw [show encVal (.jobj fs) = '{' :: encMembers fs from rfl]
        rfl,
      parseValueF_eq, skipWs_cons _ (by decide), parseValueW_obj, parseMembersF_eq]
    cases fs with
    | nil =>
      rw [show encMembers ([] : List (List Char × JValue)) ++ rest = '}' :: rest from by
          rw [encMembers]; rfl,
        skipWs_cons _ (by decide), parseMembersW_close]
      rfl
    | cons g fs' =>
      obtain ⟨S, hS⟩ : ∃ S, encMembers (g :: fs') ++ rest = encStr g.1 ++ S := by
        obtain ⟨k, v⟩ := g
        cases fs' <;> exact ⟨_, by rw [encMembers, List.append_assoc]⟩
      rw [hS, show encStr g.1 ++ S = '"' :: ((escapeStr g.1 ++ ['"']) ++ S) from rfl,
        skipWs_cons _ (by decide), parseMembersW_go _ _ (by decide),
        ← show encStr g.1 ++ S = '"' :: ((escapeStr g.1 ++ ['"']) ++ S) from rfl, ← hS]
      rw [parseMembersLoopF_encMembers g fs'
        (fun k' v' hm rest' fuel' h1 h2 => parseValueF_encVal v' rest' fuel' h1 h2) rest
        f ?hsz]
      · rfl
      case hsz =>
        simp only [jsize] at hsz
        omega
termination_by jsize v
decreasing_by
  · simp_wf
    subst_vars
    exact Nat.lt_of_le_of_lt (jsize_le_jsizeList hy) (by rw [jsize_jarr]; omega)
  · simp_wf
    subst_vars
    exact Nat.lt_of_le_of_lt (jsize_le_jsizeFields hm) (by rw [jsize_jobj]; omega)

theorem jsizeList_le_encElems (xs : List JValue)
    (ih : ∀ x, x ∈ xs → jsize x ≤ (encVal x).length) :
    jsizeList xs ≤ (encElems xs).length := by
  induction xs with
  | nil => rw [jsizeList, encElems]; simp
  | cons x xs' ihl =>
    cases xs' with
    | nil =>
      rw [jsizeList, jsizeList, encElems]
      have := ih x (List.mem_cons_self ..)
      simp
      omega
    | cons y ys =>
      rw [jsizeList, encElems]
      have h1 := ih x (List.mem_cons_self ..)
      have h2 := ihl fun z hz => ih z (List.mem_cons_of_mem _ hz)
      simp only [List.length_append, List.length_cons]
      omega

theorem jsizeFields_le_encMembers (fs : List (List Char × JValue))
    (ih : ∀ k v, (k, v) ∈ fs → jsize v ≤ (encVal v).length) :
    jsizeFields fs ≤ (encMembers fs).length := by
  induction fs with
  | nil => rw [jsizeFields, encMembers]; simp
  | cons g fs' ihl =>
    obtain ⟨k, v⟩ := g
    cases fs' with
    | nil =>
      rw [jsizeFields, jsizeFields, encMembers]
      have := ih k v (List.mem_cons_self ..)
      simp
      omega
    | cons g2 ys =>
      rw [jsizeFields, encMembers]
      have h1 := ih k v (List.mem_cons_self ..)
      have h2 := ihl fun k' v' hm => ih k' v' (List.mem_cons_of_mem _ hm)
      simp only [List.length_append, List.length_cons]
      omega

/-- A value's size never exceeds the length of its encoding, so
`jsonParse`'s fuel choice is always sufficient. -/
theorem jsize_le_encLength (v : JValue) : jsize v ≤ (encVal v).length := by
  cases v with
  | jnull =>
    rw [show encVal .jnull = ['n', 'u', 'l', 'l'] from rfl]
    simp [jsize]
  | jbool b =>
    cases b
    · rw [show encVal (.jbool false) = ['f', 'a', 'l', 's', 'e'] from rfl]
      simp [jsize]
    · rw [show encVal (.jbool true) = ['t', 'r', 'u', 'e'] from rfl]
      simp [jsize]
  | jnum n =>
    obtain ⟨c, t, hct, -, -, -⟩ := encVal_head (.jnum n)
    rw [hct]
    simp [jsize]
  | jstr s =>
    rw [show encVal (.jstr s) = '"' :: (escapeStr s ++ ['"']) from rfl]
    simp [jsize]
  | jarr xs =>
    rw [jsize_jarr, show encVal (.jarr xs) = '[' :: encElems xs from rfl]
    have := jsizeList_le_encElems xs fun x hx => jsize_le_encLength x
    simp only [List.length_cons]
    omega
  | jobj fs =>
    rw [jsize_jobj, show encVal (.jobj fs) = '{' :: encMembers fs from rfl]
    have := jsizeFields_le_encMembers fs fun k v' hm => jsize_le_encLength v'
    simp only [List.length_cons]
    omega
termination_by jsize v
decreasing_by
  · simp_wf
    subst_vars
    exact Nat.lt_of_le_of_lt (jsize_le_jsizeList hx) (by rw [jsize_jarr]; omega)
  · simp_wf
    subst_vars
    exact Nat.lt_of_le_of_lt (jsize_le_jsizeFields hm) (by rw [jsize_jobj]; omega)

/-- `json.Unmarshal` undoes `json.Marshal` on the value model. -/
theorem jsonParse_encVal (v : JValue) : jsonParse (encVal v) = some v := by
  have h := parseValueF_encVal v [] ((encVal v).length + 1)
    (Nat.le_trans (jsize_le_encLength v) (by omega)) trivial
  rw [List.append_nil] at h
  rw [jsonParse, h]
  rfl

/-- `json.Unmarshal` into a map undoes `json.Marshal` of an object. -/
theorem jsonParseObj_encObj (fs : List (List Char × JValue)) :
    jsonParseObj (encVal (.jobj fs)) = some fs := by
  rw [jsonParseObj, jsonParse_encVal]
  rfl

/-! ## Go string helpers

Models of the `strings` package functions the repository uses. Strings are
character lists; `splitOnFirst` is the leftmost-occurrence search backing
`strings.Index`/`strings.Contains`/`strings.Replace`. -/

/-- Split at the first occurrence of `pat`, returning the text before it and
the text after it, or `none` when `pat` does not occur. -/
def splitOnFirst (pat : List Char) : List Char → Option (List Char × List Char)
  | [] => if pat.isPrefixOf [] then some ([], []) else none
  | c :: t =>
    if pat.isPrefixOf (c :: t) then some ([], (c :: t).drop pat.length)
    else (splitOnFirst pat t).map fun p => (c :: p.1, p.2)

/-- Model of `strings.Contains` (and of the equivalent hand-rolled
`contains`/`findInString` pair in `internal/tools/permissions.go`):
does `pat` occur as a contiguous substring of `s`? -/
def containsSub (pat s : List Char) : Bool :=
  (splitOnFirst pat s).isSome

/-- Go `unicode.IsSpace` restricted to the ASCII range, which is the only
range the repository's inputs exercise. -/
def isSpaceChar (c : Char) : Bool :=
  c = ' ' || c = '\t' || c = '\n' || c = '\r' || c = '\x0b' || c = '\x0c'

def trimLeft (l : List Char) : List Char :=
  l.dropWhile isSpaceChar

/-- Model of `strings.TrimSpace`. -/
def trimSpace (l : List Char) : List Char :=
  ((trimLeft l).reverse.dropWhile isSpaceChar).reverse

def notSpace (c : Char) : Bool :=
  !(isSpaceChar c)

/-- Model of `strings.Fields`: maximal runs of non-whitespace. -/
def fieldsGo : Nat → List Char → List (List Char)
  | 0, _ => []
  | fuel + 1, l =>
    if (l.dropWhile isSpaceChar) = [] then []
    else
      (l.dropWhile isSpaceChar).takeWhile notSpace ::
        fieldsGo fuel ((l.dropWhile isSpaceChar).dropWhile notSpace)

def goFields (l : List Char) : List (List Char) :=
  fieldsGo (l.length + 1) l

/-- Model of `strings.Split(l, "\n")`. -/
def splitLinesF : Nat → List Char → List (List Char)
  | 0, l => [l]
  | fuel + 1, l =>
    match splitOnFirst ['\n'] l with
    | none => [l]
    | some (a, b) => a :: splitLinesF fuel b

def goSplitLines (l : List Char) : List (List Char) :=
  splitLinesF (l.length + 1) l

/-- Model of `strings.ReplaceAll(s, old, new)` for non-empty `old`:
non-overlapping leftmost replacement. -/
def replaceAllF : Nat → List Char → List Char → List Char → List Char
  | 0, _, _, s => s
  | fuel + 1, old, new, s =>
    match splitOnFirst old s with
    | none => s
    | some (a, b) => a ++ new ++ replaceAllF fuel old new b

def goReplaceAll (s old new : List Char) : List Char :=
  replaceAllF (s.length + 1) old new s

/-- Model of `strings.HasPrefix`. -/
def goHasPrefix (s pre : List Char) : Bool :=
  pre.isPrefixOf s

/-- Model of `strings.TrimPrefix`. -/
def goTrimPrefix (s pre : List Char) : List Char :=
  if pre.isPrefixOf s then s.drop pre.length else s

/-! ### Facts about the leftmost-occurrence search -/

/-- "No occurrence of `pat` begins inside `a`" (positions within `a` of the
concatenation `a ++ b`). -/
def NoPre (pat a b : List Char) : Prop :=
  ∀ i, i < a.length → pat.isPrefixOf ((a ++ b).drop i) = false

theorem isPrefixOf_append_false {pat x b : List Char}
    (h1 : pat.isPrefixOf x = false) (h2 : x.isPrefixOf pat = false) :
    pat.isPrefixOf (x ++ b) = false := by
  induction pat generalizing x with
  | nil => simp [List.isPrefixOf] at h1
  | cons p pt ih =>
    cases x with
    | nil => simp [List.isPrefixOf] at h2
    | cons y yt =>
      simp only [List.cons_append, List.isPrefixOf] at h1 h2 ⊢
      cases hpy : (p == y) with
      | false => simp [hpy]
      | true =>
        simp only [hpy, Bool.true_and] at h1 ⊢
        have hyp : (y == p) = true := by
          rw [beq_iff_eq] at hpy ⊢
          exact hpy.symm
        rw [hyp, Bool.true_and] at h2
        exact ih h1 h2

/-- Decidable sufficient condition for `NoPre` that does not look at `b`: no
suffix of `a` is prefix-compatible with `pat`. -/
def noPreWitness (pat a : List Char) : Bool :=
  (List.range a.length).all fun i =>
    !(pat.isPrefixOf (a.drop i) || (a.drop i).isPrefixOf pat)

theorem NoPre_of_witness (pat a b : List Char) (h : noPreWitness pat a = true) :
    NoPre pat a b := by
  intro i hi
  rw [noPreWitness, List.all_eq_true] at h
  have hm := h i (List.mem_range.mpr hi)
  rw [Bool.not_eq_true', Bool.or_eq_false_iff] at hm
  rw [List.drop_append_of_le_length (Nat.le_of_lt hi)]
  exact isPrefixOf_append_false hm.1 hm.2

theorem NoPre_nil (pat b : List Char) : NoPre pat [] b := by
  intro i hi
  simp at hi

theorem NoPre_cons {pat : List Char} {c : Char} {a b : List Char}
    (h0 : pat.isPrefixOf (c :: (a ++ b)) = false) (h1 : NoPre pat a b) :
    NoPre pat (c :: a) b := by
  intro i hi
  cases i with
  | zero => simpa using h0
  | succ j =>
    rw [List.cons_append, List.drop_succ_cons]
    exact h1 j (by simpa using hi)

theorem NoPre_of_head_notMem {p0 : Char} {pt a b : List Char} (h : p0 ∉ a) :
    NoPre (p0 :: pt) a b := by
  induction a with
  | nil => exact NoPre_nil _ _
  | cons c a' ih =>
    refine NoPre_cons ?_ (ih fun hm => h (List.mem_cons_of_mem _ hm))
    have hne : ¬p0 = c := fun he => h (he ▸ List.mem_cons_self ..)
    simp [List.isPrefixOf, hne]

theorem NoPre_append {pat a1 a2 b : List Char}
    (h1 : NoPre pat a1 (a2 ++ b)) (h2 : NoPre pat a2 b) :
    NoPre pat (a1 ++ a2) b := by
  induction a1 with
  | nil => simpa using h2
  | cons c a1' ih =>
    rw [List.cons_append]
    refine NoPre_cons ?_ (ih fun i hi => h1 (i + 1) (by simpa using hi))
    have := h1 0 (by simp)
    simpa [List.append_assoc] using this

theorem splitOnFirst_self {pat : List Char} (hne : pat ≠ []) (rest : List Char) :
    splitOnFirst pat (pat ++ rest) = some ([], rest) := by
  have hpre : pat.isPrefixOf (pat ++ rest) = true := by
    induction pat with
    | nil => simp [List.isPrefixOf]
    | cons p pt ih => simp [List.isPrefixOf, ih]
  obtain ⟨p, pt, rfl⟩ : ∃ p pt, pat = p :: pt := by
    cases pat with
    | nil => exact absurd rfl hne
    | cons p pt => exact ⟨p, pt, rfl⟩
  rw [List.cons_append, splitOnFirst, if_pos (by simp only [List.cons_append] at hpre; exact hpre)]
  congr 1
  rw [show ((p :: pt).length = pt.length + 1) from by simp, List.drop_succ_cons]
  congr 1
  exact List.drop_left pt rest

theorem splitOnFirst_append {pat a b : List Char} (h : NoPre pat a b) :
    splitOnFirst pat (a ++ b) =
      (splitOnFirst pat b).map fun p => (a ++ p.1, p.2) := by
  induction a with
  | nil =>
    simp only [List.nil_append]
    cases splitOnFirst pat b <;> simp
  | cons c a' ih =>
    have hfalse := h 0 (by simp)
    simp only [List.drop_zero, List.cons_append] at hfalse
    rw [List.cons_append, splitOnFirst,
      if_neg (fun hp => by rw [hfalse] at hp; cases hp),
      ih fun i hi => h (i + 1) (by simpa using hi)]
    cases splitOnFirst pat b <;> simp

theorem splitOnFirst_mid {pat a : List Char} (rest : List Char) (hne : pat ≠ [])
    (h : NoPre pat a (pat ++ rest)) :
    splitOnFirst pat (a ++ (pat ++ rest)) = some (a, rest) := by
  rw [splitOnFirst_append h, splitOnFirst_self hne]
  simp

theorem splitOnFirst_none {pat a : List Char} (hne : pat ≠ []) (h : NoPre pat a []) :
    splitOnFirst pat a = none := by
  have := splitOnFirst_append (b := []) (by simpa using h)
  rw [List.append_nil] at this
  rw [this]
  obtain ⟨p, pt, rfl⟩ : ∃ p pt, pat = p :: pt := by
    cases pat with
    | nil => exact absurd rfl hne
    | cons p pt => exact ⟨p, pt, rfl⟩
  rw [splitOnFirst]
  simp [List.isPrefixOf]

/-! ## Tool calls and the agent's fallback extractors

Translated from `Agent.parseXMLToolCalls`, `Agent.parseJSONToolCalls` and
`Agent.parseTextToolCalls` in the agent source. A `ToolCallR` flattens
`ollama.ToolCall{Function:{Name, Arguments}}` to the pair the spec talks
about. -/

structure ToolCallR where
  name : List Char
  args : List (List Char × JValue)

def tcOpen : List Char := "<tool_call>".data

def tcClose : List Char := "</tool_call>".data

def nameOpen : List Char := "<name>".data

def nameClose : List Char := "</name>".data

def argsOpen : List Char := "<arguments>".data

def argsClose : List Char := "</arguments>".data

/-- All capture groups of Go's `FindAllStringSubmatch` for the regex
`(?s)<tool_call>(.*?)</tool_call>`: repeatedly take the text between the
leftmost open tag and the nearest close tag after it. -/
def extractBlocksF : Nat → List Char → List (List Char)
  | 0, _ => []
  | fuel + 1, s =>
    match splitOnFirst tcOpen s with
    | none => []
    | some (_, afterOpen) =>
      match splitOnFirst tcClose afterOpen with
      | none => []
      | some (body, rest) => body :: extractBlocksF fuel rest

/-- First capture of `(?s)op(.*?)cl`: the shortest span between the leftmost
`op` and the following `cl`. -/
def findFirstTag (op cl s : List Char) : Option (List Char) :=
  match splitOnFirst op s with
  | none => none
  | some (_, after) => (splitOnFirst cl after).map Prod.fst

/-- First capture of `op(.*?)cl` without `(?s)`: as `findFirstTag`, but a
span containing a newline cannot match (`.` does not match `\n`), in which
case the scan resumes at the next occurrence of `op`. -/
def findFirstTagNoNLF : Nat → List Char → List Char → List Char → Option (List Char)
  | 0, _, _, _ => none
  | fuel + 1, op, cl, s =>
    match splitOnFirst op s with
    | none => none
    | some (_, after) =>
      match splitOnFirst cl after with
      | none => none
      | some (body, _) =>
        if body.contains '\n' then findFirstTagNoNLF fuel op cl after
        else some body

/-- One `<tool_call>` block: the name is mandatory (`continue` in Go when the
name regex fails), the arguments default to the empty map when missing or
unparseable. -/
def parseXMLBlock (block : List Char) : Option ToolCallR :=
  match findFirstTagNoNLF (block.length + 1) nameOpen nameClose block with
  | none => none
  | some rawName =>
    some ⟨trimSpace rawName,
      match findFirstTag argsOpen argsClose block with
      | none => []
      | some rawArgs =>
        match jsonParseObj (trimSpace rawArgs) with
        | none => []
        | some fs => fs⟩

/-- `Agent.parseXMLToolCalls`. -/
def parseXMLToolCalls (content : List Char) : List ToolCallR :=
  (extractBlocksF (content.length + 1) content).filterMap parseXMLBlock

def fenceOpen : List Char := "```json".data

def fenceClose : List Char := "\n```".data

/-- `\s` of Go's regexp syntax: `[ \t\n\f\r]`. -/
def isRegexSpace (c : Char) : Bool :=
  c = ' ' || c = '\t' || c = '\n' || c = '\x0c' || c = '\r'

/-- The candidate lengths of the `\s*\n` run after a fence opener, longest
first, exactly the order a backtracking regex engine tries them. -/
def wsNlCandidates (l : List Char) : List Nat :=
  (((List.range (l.takeWhile isRegexSpace).length).reverse).map (· + 1)).filter
    fun k => (l.drop (k - 1)).head? == some '\n'

/-- Match `\s*\n(.*?)\n`+fence at a position directly after a fence opener,
with the regex engine's greedy-then-backtrack choice of the whitespace run. -/
def matchFenceAt (after : List Char) : Option (List Char × List Char) :=
  (wsNlCandidates after).findSome? fun k => splitOnFirst fenceClose (after.drop k)

/-- All bodies of ```` ```json ```` fenced blocks, the model of Go's
`FindAllStringSubmatch` for ``` "(?s)```json\s*\n(.*?)\n```" ```. -/
def fenceBlocksF : Nat → List Char → List (List Char)
  | 0, _ => []
  | fuel + 1, s =>
    match splitOnFirst fenceOpen s with
    | none => []
    | some (_, after) =>
      match matchFenceAt after with
      | none => fenceBlocksF fuel after
      | some (body, rest) => body :: fenceBlocksF fuel rest

/-- One fenced block: `tool_call` must be an object (else the block is
skipped); a missing or non-string `name` degrades to the empty string and
missing or non-object `arguments` to the empty map, as Go's failed type
assertions do. -/
def parseJSONBlock (body : List Char) : Option ToolCallR :=
  match jsonParseObj body with
  | none => none
  | some data =>
    match jlookup data ("tool_call".data) with
    | some (.jobj tc) =>
      some ⟨(match jlookup tc ("name".data) with
             | some (.jstr s) => s
             | _ => []),
            (match jlookup tc ("arguments".data) with
             | some (.jobj fs) => fs
             | _ => [])⟩
    | _ => none

/-- `Agent.parseJSONToolCalls`. -/
def parseJSONToolCalls (content : List Char) : List ToolCallR :=
  (fenceBlocksF (content.length + 1) content).filterMap parseJSONBlock

def useToolPrefix : List Char := "USE_TOOL:".data

def argsLinePrefix : List Char := "ARGS:".data

/-- The line scan of `Agent.parseTextToolCalls`: a trimmed `USE_TOOL:` line
followed immediately by an `ARGS:` line emits one call and skips the `ARGS:`
line; anything else advances one line. -/
def parseTextLoop : List (List Char) → List ToolCallR
  | [] => []
  | [_] => []
  | l :: l2 :: rest2 =>
    if goHasPrefix (trimSpace l) useToolPrefix then
      if goHasPrefix (trimSpace l2) argsLinePrefix then
        ⟨trimSpace (goTrimPrefix (trimSpace l) useToolPrefix),
          (jsonParseObj (trimSpace (goTrimPrefix (trimSpace l2) argsLinePrefix))).getD []⟩ ::
          parseTextLoop rest2
      else parseTextLoop (l2 :: rest2)
    else parseTextLoop (l2 :: rest2)

/-- `Agent.parseTextToolCalls`. -/
def parseTextToolCalls (content : List Char) : List ToolCallR :=
  parseTextLoop (goSplitLines content)

/-! ### Synthetic renderers

Modelled from the spec: the three fallback dialect formats as the system
prompts in `internal/config/config.go` display them to the model, rendered
compactly with Go-style JSON encoding of the argument map. They are the
"rendering a tool-call synthetic response in D" of the dialect round-trip
property, which has no single rendering function in the source. -/

/-- Modelled from the spec: the tagged-XML dialect shape
`<tool_call><name>…</name><arguments>…</arguments></tool_call>`. -/
def renderTagged (name : List Char) (args : List (List Char × JValue)) : List Char :=
  tcOpen ++ (nameOpen ++ name ++ nameClose ++ argsOpen ++ encVal (.jobj args) ++ argsClose)
    ++ tcClose

/-- Modelled from the spec: the fenced-JSON dialect shape, a ```` ```json ````
block holding `{"tool_call":{"name":…,"arguments":…}}`. -/
def renderFencedJson (name : List Char) (args : List (List Char × JValue)) : List Char :=
  fenceOpen ++ '\n' ::
    (encVal (.jobj [("tool_call".data,
      .jobj [("name".data, .jstr name), ("arguments".data, .jobj args)])]) ++ fenceClose)

/-- Modelled from the spec: the line-prefixed dialect shape
`USE_TOOL: name` newline `ARGS: {…}`. -/
def renderLinePrefixed (name : List Char) (args : List (List Char × JValue)) : List Char :=
  useToolPrefix ++ ' ' :: name ++ '\n' :: argsLinePrefix ++ ' ' :: encVal (.jobj args)

/-! ### Support lemmas for the dialect round trips -/

theorem isPrefixOf_append_self (pat rest : List Char) :
    pat.isPrefixOf (pat ++ rest) = true := by
  rw [List.isPrefixOf_iff_prefix]
  exact List.prefix_append pat rest

theorem contains_eq_false_of_not_mem {a : Char} {l : List Char} (h : a ∉ l) :
    l.contains a = false := by
  simp [List.contains]
  exact h

theorem getLast?_ne_nil_append {l₁ l₂ : List Char} (h : l₂ ≠ []) :
    (l₁ ++ l₂).getLast? = l₂.getLast? :=
  List.getLast?_append_of_ne_nil l₁ h

theorem trimLeft_cons {c : Char} (l : List Char) (h : isSpaceChar c = false) :
    trimLeft (c :: l) = c :: l := by
  simp [trimLeft, List.dropWhile, h]

theorem trimSpace_eq_self {l : List Char}
    (hh : ∀ c, l.head? = some c → isSpaceChar c = false)
    (hl : ∀ c, l.getLast? = some c → isSpaceChar c = false) :
    trimSpace l = l := by
  cases l with
  | nil => rfl
  | cons c t =>
    rw [trimSpace, trimLeft_cons t (hh c rfl)]
    obtain ⟨d, r', hr⟩ : ∃ d r', (c :: t).reverse = d :: r' := by
      cases hrev : (c :: t).reverse with
      | nil => exact absurd (congrArg List.length hrev) (by simp)
      | cons d r' => exact ⟨d, r', rfl⟩
    have hd : isSpaceChar d = false := by
      refine hl d ?_
      rw [← List.head?_reverse, hr]
      rfl
    rw [hr, List.dropWhile, hd]
    simp only [Bool.false_eq_true, if_false]
    rw [← hr, List.reverse_reverse]

theorem trimSpace_space_cons {l : List Char}
    (hh : ∀ c, l.head? = some c → isSpaceChar c = false)
    (hl : ∀ c, l.getLast? = some c → isSpaceChar c = false) :
    trimSpace (' ' :: l) = l := by
  cases l with
  | nil => rfl
  | cons c t =>
    rw [trimSpace, trimLeft, List.dropWhile_cons, if_pos (show isSpaceChar ' ' = true by decide),
      List.dropWhile_cons, if_neg (by rw [hh c rfl]; exact Bool.false_ne_true)]
    have := trimSpace_eq_self hh hl
    rw [trimSpace, trimLeft_cons t (hh c rfl)] at this
    exact this

/-! ### The encoding avoids markup-significant characters

`encVal` output never contains `<`, `>` or a newline: angle brackets are
HTML-escaped and newlines escaped as `\n`, so encoded argument maps can
never terminate an XML tag, a fenced block or a `ARGS:` line early. -/

def AvoidMk (c : Char) : Prop :=
  c ≠ '<' ∧ c ≠ '>' ∧ c ≠ '\n'

theorem hexDigit_avoid {n : Nat} (h : n < 16) : AvoidMk (hexDigit n) := by
  interval_cases n <;> exact ⟨by decide, by decide, by decide⟩

theorem escapeChar_avoid (c : Char) : ∀ d ∈ escapeChar c, AvoidMk d := by
  intro d hd
  rw [escapeChar] at hd
  by_cases h1 : c = '"'
  · simp only [h1, if_pos] at hd
    fin_cases hd <;> exact ⟨by decide, by decide, by decide⟩
  rw [if_neg h1] at hd
  by_cases h2 : c = '\\'
  · simp only [h2, if_pos] at hd
    fin_cases hd <;> exact ⟨by decide, by decide, by decide⟩
  rw [if_neg h2] at hd
  by_cases h3 : c = '\n'
  · simp only [h3, if_pos] at hd
    fin_cases hd <;> exact ⟨by decide, by decide, by decide⟩
  rw [if_neg h3] at hd
  by_cases h4 : c = '\r'
  · simp only [h4, if_pos] at hd
    fin_cases hd <;> exact ⟨by decide, by decide, by decide⟩
  rw [if_neg h4] at hd
  by_cases h5 : c = '\t'
  · simp only [h5, if_pos] at hd
    fin_cases hd <;> exact ⟨by decide, by decide, by decide⟩
  rw [if_neg h5] at hd
  by_cases h6 : c = '<'
  · simp only [h6, if_pos] at hd
    fin_cases hd <;> exact ⟨by decide, by decide, by decide⟩
  rw [if_neg h6] at hd
  by_cases h7 : c = '>'
  · simp only [h7, if_pos] at hd
    fin_cases hd <;> exact ⟨by decide, by decide, by decide⟩
  rw [if_neg h7] at hd
  by_cases h8 : c = '&'
  · simp only [h8, if_pos] at hd
    fin_cases hd <;> exact ⟨by decide, by decide, by decide⟩
  rw [if_neg h8] at hd
  by_cases h9 : c.toNat < 32
  · rw [if_pos h9] at hd
    fin_cases hd <;> first
      | exact ⟨by decide, by decide, by decide⟩
      | exact hexDigit_avoid (by omega)
  · rw [if_neg h9] at hd
    rcases List.mem_singleton.mp hd with rfl
    exact ⟨h6, h7, h3⟩

theorem escapeStr_avoid (s : List Char) : ∀ d ∈ escapeStr s, AvoidMk d := by
  intro d hd
  rw [escapeStr, List.mem_flatMap] at hd
  obtain ⟨c, -, hdc⟩ := hd
  exact escapeChar_avoid c d hdc

theorem natRepr_all_digits (n : Nat) : ∀ c ∈ natRepr n, c.isDigit = true := by
  intro c hc
  by_cases h : n < 10
  · rw [natRepr, if_pos h] at hc
    rcases List.mem_singleton.mp hc with rfl
    exact digitChar_isDigit h
  · rw [natRepr, if_neg h, List.mem_append] at hc
    rcases hc with hc | hc
    · exact natRepr_all_digits (n / 10) c hc
    · rcases List.mem_singleton.mp hc with rfl
      exact digitChar_isDigit (by omega)
termination_by n
decreasing_by exact Nat.div_lt_self (by omega) (by omega)

theorem isDigit_avoid {c : Char} (h : c.isDigit = true) : AvoidMk c := by
  refine ⟨?_, ?_, ?_⟩ <;> (rintro rfl; exact absurd h (by decide))

theorem intRepr_avoid (i : Int) : ∀ c ∈ intRepr i, AvoidMk c := by
  intro c hc
  rw [intRepr] at hc
  by_cases h : i < 0
  · rw [if_pos h] at hc
    rcases List.mem_cons.mp hc with rfl | hc
    · exact ⟨by decide, by decide, by decide⟩
    · exact isDigit_avoid (natRepr_all_digits _ c hc)
  · rw [if_neg h] at hc
    exact isDigit_avoid (natRepr_all_digits _ c hc)

theorem encElems_avoid_of (xs : List JValue)
    (ih : ∀ x ∈ xs, ∀ c ∈ encVal x, AvoidMk c) :
    ∀ c ∈ encElems xs, AvoidMk c := by
  induction xs with
  | nil =>
    intro c hc
    rw [encElems] at hc
    rcases List.mem_singleton.mp hc with rfl
    exact ⟨by decide, by decide, by decide⟩
  | cons x xs' ihl =>
    cases xs' with
    | nil =>
      intro c hc
      rw [encElems, List.mem_append] at hc
      rcases hc with hc | hc
      · exact ih x (List.mem_cons_self ..) c hc
      · rcases List.mem_singleton.mp hc with rfl
        exact ⟨by decide, by decide, by decide⟩
    | cons y ys =>
      intro c hc
      rw [encElems, List.mem_append] at hc
      rcases hc with hc | hc
      · exact ih x (List.mem_cons_self ..) c hc
      · rcases List.mem_cons.mp hc with rfl | hc
        · exact ⟨by decide, by decide, by decide⟩
        · exact ihl (fun z hz => ih z (List.mem_cons_of_mem _ hz)) c hc

theorem encMembers_avoid_of (fs : List (List Char × JValue))
    (ihk : ∀ g ∈ fs, ∀ c ∈ escapeStr g.1, AvoidMk c)
    (ih : ∀ g ∈ fs, ∀ c ∈ encVal g.2, AvoidMk c) :
    ∀ c ∈ encMembers fs, AvoidMk c := by
  induction fs with
  | nil =>
    intro c hc
    rw [encMembers] at hc
    rcases List.mem_singleton.mp hc with rfl
    exact ⟨by decide, by decide, by decide⟩
  | cons g fs' ihl =>
    obtain ⟨k, v⟩ := g
    have hkey : ∀ c ∈ encStr k, AvoidMk c := by
      intro c hc
      rw [encStr] at hc
      rcases List.mem_cons.mp hc with rfl | hc
      · exact ⟨by decide, by decide, by decide⟩
      · rw [List.mem_append] at hc
        rcases hc with hc | hc
        · exact ihk (k, v) (List.mem_cons_self ..) c hc
        · rcases List.mem_singleton.mp hc with rfl
          exact ⟨by decide, by decide, by decide⟩
    cases fs' with
    | nil =>
      intro c hc
      rw [encMembers, List.mem_append] at hc
      rcases hc with hc | hc
      · exact hkey c hc
      · rcases List.mem_cons.mp hc with rfl | hc
        · exact ⟨by decide, by decide, by decide⟩
        · rw [List.mem_append] at hc
          rcases hc with hc | hc
          · exact ih (k, v) (List.mem_cons_self ..) c hc
          · rcases List.mem_singleton.mp hc with rfl
            exact ⟨by decide, by decide, by decide⟩
    | cons g2 ys =>
      intro c hc
      rw [encMembers, List.mem_append] at hc
      rcases hc with hc | hc
      · exact hkey c hc
      · rcases List.mem_cons.mp hc with rfl | hc
        · exact ⟨by decide, by decide, by decide⟩
        · rw [List.mem_append] at hc
          rcases hc with hc | hc
          · exact ih (k, v) (List.mem_cons_self ..) c hc
          · rcases List.mem_cons.mp hc with rfl | hc
            · exact ⟨by decide, by decide, by decide⟩
            · exact ihl (fun g hg => ihk g (List.mem_cons_of_mem _ hg))
                (fun g hg => ih g (List.mem_cons_of_mem _ hg)) c hc

/-- No character of an encoded JSON value is `<`, `>` or a newline. -/
theorem encVal_avoid (v : JValue) : ∀ c ∈ encVal v, AvoidMk c := by
  intro c hc
  cases v with
  | jnull =>
    rw [show encVal .jnull = ['n', 'u', 'l', 'l'] from rfl] at hc
    fin_cases hc <;> exact ⟨by decide, by decide, by decide⟩
  | jbool b =>
    cases b
    · rw [show encVal (.jbool false) = ['f', 'a', 'l', 's', 'e'] from rfl] at hc
      fin_cases hc <;> exact ⟨by decide, by decide, by decide⟩
    · rw [show encVal (.jbool true) = ['t', 'r', 'u', 'e'] from rfl] at hc
      fin_cases hc <;> exact ⟨by decide, by decide, by decide⟩
  | jnum n => exact intRepr_avoid n c hc
  | jstr s =>
    rw [show encVal (.jstr s) = '"' :: (escapeStr s ++ ['"']) from rfl] at hc
    rcases List.mem_cons.mp hc with rfl | hc
    · exact ⟨by decide, by decide, by decide⟩
    · rw [List.mem_append] at hc
      rcases hc with hc | hc
      · exact escapeStr_avoid s c hc
      · rcases List.mem_singleton.mp hc with rfl
        exact ⟨by decide, by decide, by decide⟩
  | jarr xs =>
    rw [show encVal (.jarr xs) = '[' :: encElems xs from rfl] at hc
    rcases List.mem_cons.mp hc with rfl | hc
    · exact ⟨by decide, by decide, by decide⟩
    · exact encElems_avoid_of xs (fun x hx => encVal_avoid x) c hc
  | jobj fs =>
    rw [show encVal (.jobj fs) = '{' :: encMembers fs from rfl] at hc
    rcases List.mem_cons.mp hc with rfl | hc
    · exact ⟨by decide, by decide, by decide⟩
    · exact encMembers_avoid_of fs (fun g hg => escapeStr_avoid g.1)
        (fun g hg => encVal_avoid g.2) c hc
termination_by jsize v
decreasing_by
  · simp_wf
    subst_vars
    exact Nat.lt_of_le_of_lt (jsize_le_jsizeList hx) (by rw [jsize_jarr]; omega)
  · simp_wf
    subst_vars
    exact Nat.lt_of_le_of_lt (jsize_le_jsizeFields hg) (by rw [jsize_jobj]; omega)

theorem encVal_not_mem_lt (v : JValue) : '<' ∉ encVal v :=
  fun hm => (encVal_avoid v '<' hm).1 rfl

theorem encVal_not_mem_nl (v : JValue) : '\n' ∉ encVal v :=
  fun hm => (encVal_avoid v '\n' hm).2.2 rfl

theorem extractBlocksF_step {s pre afterOpen body rest : List Char} (fuel : Nat)
    (h1 : splitOnFirst tcOpen s = some (pre, afterOpen))
    (h2 : splitOnFirst tcClose afterOpen = some (body, rest)) :
    extractBlocksF (fuel + 1) s = body :: extractBlocksF fuel rest := by
  rw [extractBlocksF.eq_def]
  simp only [h1, h2]

theorem splitOnFirst_nil_of_ne {pat : List Char} (h : pat ≠ []) :
    splitOnFirst pat [] = none := by
  obtain ⟨p, pt, rfl⟩ : ∃ p pt, pat = p :: pt := by
    cases pat with
    | nil => exact absurd rfl h
    | cons p pt => exact ⟨p, pt, rfl⟩
  rw [splitOnFirst]
  simp [List.isPrefixOf]

theorem extractBlocksF_nil (fuel : Nat) : extractBlocksF fuel [] = [] := by
  cases fuel with
  | zero => rw [extractBlocksF.eq_def]
  | succ f =>
    rw [extractBlocksF.eq_def]
    simp only [splitOnFirst_nil_of_ne (show tcOpen ≠ [] by decide)]

theorem findFirstTagNoNLF_found {op cl s pre after body rest : List Char} (fuel : Nat)
    (h1 : splitOnFirst op s = some (pre, after))
    (h2 : splitOnFirst cl after = some (body, rest))
    (h3 : body.contains '\n' = false) :
    findFirstTagNoNLF (fuel + 1) op cl s = some body := by
  rw [findFirstTagNoNLF.eq_def]
  simp only [h1, h2, h3, Bool.false_eq_true, if_false]

theorem fenceBlocksF_step {s pre after body rest : List Char} (fuel : Nat)
    (h1 : splitOnFirst fenceOpen s = some (pre, after))
    (h2 : matchFenceAt after = some (body, rest)) :
    fenceBlocksF (fuel + 1) s = body :: fenceBlocksF fuel rest := by
  rw [fenceBlocksF.eq_def]
  simp only [h1, h2]

theorem fenceBlocksF_nil (fuel : Nat) : fenceBlocksF fuel [] = [] := by
  cases fuel with
  | zero => rw [fenceBlocksF.eq_def]
  | succ f =>
    rw [fenceBlocksF.eq_def]
    simp only [splitOnFirst_nil_of_ne (show fenceOpen ≠ [] by decide)]

theorem splitLinesF_none {l : List Char} (fuel : Nat)
    (h : splitOnFirst ['\n'] l = none) : splitLinesF (fuel + 1) l = [l] := by
  rw [splitLinesF.eq_def]
  simp only [h]

theorem splitLinesF_some {l a b : List Char} (fuel : Nat)
    (h : splitOnFirst ['\n'] l = some (a, b)) :
    splitLinesF (fuel + 1) l = a :: splitLinesF fuel b := by
  rw [splitLinesF.eq_def]
  simp only [h]

/-- `strings.Split(l1 ++ "\n" ++ l2, "\n")` on newline-free halves. -/
theorem goSplitLines_two {l1 l2 : List Char} (h1 : '\n' ∉ l1) (h2 : '\n' ∉ l2) :
    goSplitLines (l1 ++ '\n' :: l2) = [l1, l2] := by
  have hsplit : splitOnFirst ['\n'] (l1 ++ '\n' :: l2) = some (l1, l2) := by
    have := @splitOnFirst_mid ['\n'] l1 l2 (by decide)
      (NoPre_of_head_notMem h1)
    simpa using this
  have hsplit2 : splitOnFirst ['\n'] l2 = none :=
    splitOnFirst_none (by decide) (NoPre_of_head_notMem h2)
  rw [goSplitLines, show (l1 ++ '\n' :: l2).length + 1 = (l2.length + 1) + l1.length + 1 from by
      simp only [List.length_append, List.length_cons]
      omega,
    splitLinesF_some _ hsplit]
  congr 1
  cases hl1 : l1.length with
  | zero => rw [splitLinesF_none _ hsplit2]
  | succ m => rw [show l2.length + 1 + (m + 1) = (l2.length + 1 + m) + 1 from by omega,
      splitLinesF_none _ hsplit2]

theorem ne_nil_of_getLast?_some {l : List Char} {c : Char} (h : l.getLast? = some c) :
    l ≠ [] := by
  rintro rfl
  cases h

theorem encMembers_getLast (fs : List (List Char × JValue)) :
    (encMembers fs).getLast? = some '}' := by
  induction fs with
  | nil => rw [encMembers]; rfl
  | cons g fs' ih =>
    obtain ⟨k, v⟩ := g
    cases fs' with
    | nil =>
      rw [encMembers, getLast?_ne_nil_append (by simp)]
      rw [show ':' :: (encVal v ++ ['}']) = ([':'] ++ encVal v) ++ ['}'] from by simp,
        getLast?_ne_nil_append (by simp)]
      rfl
    | cons g2 ys =>
      rw [encMembers, getLast?_ne_nil_append (by simp)]
      have hne : encMembers (g2 :: ys) ≠ [] := ne_nil_of_getLast?_some ih
      rw [show ':' :: (encVal v ++ ',' :: encMembers (g2 :: ys)) =
          (':' :: encVal v ++ [',']) ++ encMembers (g2 :: ys) from by simp,
        getLast?_ne_nil_append hne]
      exact ih

theorem encObj_getLast (args : List (List Char × JValue)) :
    (encVal (.jobj args)).getLast? = some '}' := by
  rw [show encVal (.jobj args) = ['{'] ++ encMembers args from by
    rw [show encVal (.jobj args) = '{' :: encMembers args from rfl]
    rfl]
  rw [getLast?_ne_nil_append (ne_nil_of_getLast?_some (encMembers_getLast args))]
  exact encMembers_getLast args

/-- Encoded objects are whitespace-clean at both ends, so `TrimSpace` leaves
them alone. -/
theorem trimSpace_encObj (args : List (List Char × JValue)) :
    trimSpace (encVal (.jobj args)) = encVal (.jobj args) := by
  refine trimSpace_eq_self ?_ ?_
  · intro c hc
    rw [show encVal (.jobj args) = '{' :: encMembers args from rfl] at hc
    cases hc
    decide
  · intro c hc
    rw [encObj_getLast args] at hc
    cases hc
    decide

/-- The tagged-XML extractor recovers a rendered call, for names free of
`<`, of newlines and of surrounding whitespace. -/
theorem parseXML_renderTagged (name : List Char) (args : List (List Char × JValue))
    (hlt : '<' ∉ name) (hnl : '\n' ∉ name)
    (hh : ∀ c, name.head? = some c → isSpaceChar c = false)
    (hl : ∀ c, name.getLast? = some c → isSpaceChar c = false) :
    parseXMLToolCalls (renderTagged name args) = [⟨name, args⟩] := by
  have npName : ∀ (pt : List Char) (b : List Char), NoPre ('<' :: pt) name b :=
    fun pt b => NoPre_of_head_notMem hlt
  have npEnc : ∀ (pt : List Char) (b : List Char),
      NoPre ('<' :: pt) (encVal (.jobj args)) b :=
    fun pt b => NoPre_of_head_notMem (encVal_not_mem_lt _)
  have hinner : ∀ b, NoPre tcClose
      (nameOpen ++ name ++ nameClose ++ argsOpen ++ encVal (.jobj args) ++ argsClose) b := by
    intro b
    refine NoPre_append (NoPre_append (NoPre_append (NoPre_append (NoPre_append
      (NoPre_of_witness _ _ _ (by decide)) ?_) (NoPre_of_witness _ _ _ (by decide)))
      (NoPre_of_witness _ _ _ (by decide))) ?_) (NoPre_of_witness _ _ _ (by decide))
    · exact npName _ _
    · exact npEnc _ _
  have h1 : splitOnFirst tcOpen (renderTagged name args) =
      some ([], (nameOpen ++ name ++ nameClose ++ argsOpen ++ encVal (.jobj args) ++ argsClose)
        ++ tcClose) := by
    rw [show renderTagged name args = tcOpen ++
        ((nameOpen ++ name ++ nameClose ++ argsOpen ++ encVal (.jobj args) ++ argsClose)
          ++ tcClose) from by rw [renderTagged]; simp [List.append_assoc]]
    exact splitOnFirst_self (by decide) _
  have h2 : splitOnFirst tcClose
      ((nameOpen ++ name ++ nameClose ++ argsOpen ++ encVal (.jobj args) ++ argsClose)
        ++ tcClose) =
      some (nameOpen ++ name ++ nameClose ++ argsOpen ++ encVal (.jobj args) ++ argsClose,
        []) := by
    have := @splitOnFirst_mid tcClose
      (nameOpen ++ name ++ nameClose ++ argsOpen ++ encVal (.jobj args) ++ argsClose)
      [] (by decide) (by rw [List.append_nil]; exact hinner _)
    rw [List.append_nil] at this
    exact this
  have hfind1 : findFirstTagNoNLF
      ((nameOpen ++ name ++ nameClose ++ argsOpen ++ encVal (.jobj args) ++ argsClose).length
        + 1)
      nameOpen nameClose
      (nameOpen ++ name ++ nameClose ++ argsOpen ++ encVal (.jobj args) ++ argsClose) =
      some name := by
    have ha : splitOnFirst nameOpen
        (nameOpen ++ name ++ nameClose ++ argsOpen ++ encVal (.jobj args) ++ argsClose) =
        some ([], name ++ (nameClose ++ (argsOpen ++ (encVal (.jobj args) ++ argsClose)))) := by
      rw [show nameOpen ++ name ++ nameClose ++ argsOpen ++ encVal (.jobj args) ++ argsClose
          = nameOpen ++ (name ++ (nameClose ++ (argsOpen ++ (encVal (.jobj args) ++ argsClose))))
        from by simp [List.append_assoc]]
      exact splitOnFirst_self (by decide) _
    have hb : splitOnFirst nameClose
        (name ++ (nameClose ++ (argsOpen ++ (encVal (.jobj args) ++ argsClose)))) =
        some (name, argsOpen ++ (encVal (.jobj args) ++ argsClose)) :=
      splitOnFirst_mid _ (by decide)
        (by rw [show nameClose = '<' :: "/name>".data from rfl]; exact npName _ _)
    exact findFirstTagNoNLF_found _ ha hb (contains_eq_false_of_not_mem hnl)
  have hfind2 : findFirstTag argsOpen argsClose
      (nameOpen ++ name ++ nameClose ++ argsOpen ++ encVal (.jobj args) ++ argsClose) =
      some (encVal (.jobj args)) := by
    rw [findFirstTag]
    rw [show nameOpen ++ name ++ nameClose ++ argsOpen ++ encVal (.jobj args) ++ argsClose
        = (nameOpen ++ (name ++ nameClose)) ++ (argsOpen ++ (encVal (.jobj args) ++ argsClose))
      from by simp [List.append_assoc]]
    rw [splitOnFirst_mid (a := nameOpen ++ (name ++ nameClose)) _ (by decide) (by
      refine NoPre_append (NoPre_of_witness _ _ _ (by decide))
        (NoPre_append ?_ (NoPre_of_witness _ _ _ (by decide)))
      exact npName _ _)]
    have hc : splitOnFirst argsClose (encVal (.jobj args) ++ argsClose) =
        some (encVal (.jobj args), []) := by
      have := @splitOnFirst_mid argsClose (encVal (.jobj args)) [] (by decide)
        (by rw [List.append_nil]
            rw [show argsClose = '<' :: "/arguments>".data from rfl]
            exact npEnc _ _)
      rw [List.append_nil] at this
      exact this
    simp only [hc, Option.map_some']
  have hblock : parseXMLBlock
      (nameOpen ++ name ++ nameClose ++ argsOpen ++ encVal (.jobj args) ++ argsClose) =
      some ⟨name, args⟩ := by
    rw [parseXMLBlock]
    simp only [hfind1, hfind2, trimSpace_eq_self hh hl, trimSpace_encObj,
      jsonParseObj_encObj]
  obtain ⟨f, hf⟩ : ∃ f, (renderTagged name args).length + 1 = f + 1 :=
    ⟨(renderTagged name args).length, rfl⟩
  rw [parseXMLToolCalls, hf, extractBlocksF_step f h1 h2, extractBlocksF_nil,
    List.filterMap_cons, hblock, List.filterMap_nil]

theorem wsNlCandidates_single {l : List Char} (h : l.takeWhile isRegexSpace = ['\n']) :
    wsNlCandidates l = [1] := by
  have hhead : l.head? = some '\n' := by
    cases l with
    | nil => simp [List.takeWhile] at h
    | cons a l' =>
      rw [List.takeWhile_cons] at h
      by_cases hp : isRegexSpace a = true
      · rw [if_pos hp] at h
        injection h with h1 _
        rw [h1]
        rfl
      · rw [if_neg hp] at h
        cases h
  rw [wsNlCandidates, h]
  rw [show (((List.range (['\n'] : List Char).length).reverse).map (· + 1)) = [1] from rfl]
  have hp : ((l.drop (1 - 1)).head? == some '\n') = true := by
    rw [show (1 : Nat) - 1 = 0 from rfl, List.drop_zero, hhead]
    rfl
  simp only [List.filter_cons, hp, if_true, List.filter_nil]

/-- The backtracking `\s*\n` fence match directly after a fence opener, for a
nonempty newline-free body that does not begin with regex whitespace. -/
theorem matchFenceAt_simple {l : List Char}
    (hhead : ∀ c, l.head? = some c → isRegexSpace c = false) (hne : l ≠ [])
    (hnl : '\n' ∉ l) :
    matchFenceAt ('\n' :: (l ++ fenceClose)) = some (l, []) := by
  obtain ⟨c, t, rfl⟩ : ∃ c t, l = c :: t := by
    cases l with
    | nil => exact absurd rfl hne
    | cons c t => exact ⟨c, t, rfl⟩
  have htake : (('\n' :: ((c :: t) ++ fenceClose)).takeWhile isRegexSpace) = ['\n'] := by
    rw [List.takeWhile_cons, if_pos (by decide), List.cons_append, List.takeWhile_cons,
      if_neg (by rw [hhead c rfl]; exact Bool.false_ne_true)]
  have hsplit : splitOnFirst fenceClose ((c :: t) ++ fenceClose) = some (c :: t, []) := by
    have := @splitOnFirst_mid fenceClose (c :: t) [] (by decide)
      (by rw [List.append_nil]
          rw [show fenceClose = '\n' :: "```".data from rfl]
          exact NoPre_of_head_notMem hnl)
    rw [List.append_nil] at this
    exact this
  rw [matchFenceAt, wsNlCandidates_single htake, List.findSome?_cons]
  rw [show (('\n' :: ((c :: t) ++ fenceClose)).drop 1) = (c :: t) ++ fenceClose from rfl,
    hsplit]

/-- The fenced-JSON extractor recovers a rendered call, for every name. -/
theorem parseJSON_renderFenced (name : List Char) (args : List (List Char × JValue)) :
    parseJSONToolCalls (renderFencedJson name args) = [⟨name, args⟩] := by
  have h1 : splitOnFirst fenceOpen (renderFencedJson name args) =
      some ([], '\n' :: (encVal (.jobj [("tool_call".data,
        .jobj [("name".data, .jstr name), ("arguments".data, .jobj args)])]) ++ fenceClose)) := by
    rw [renderFencedJson]
    exact splitOnFirst_self (by decide) _
  have h2 : matchFenceAt ('\n' :: (encVal (.jobj [("tool_call".data,
      .jobj [("name".data, .jstr name), ("arguments".data, .jobj args)])]) ++ fenceClose)) =
      some (encVal (.jobj [("tool_call".data,
        .jobj [("name".data, .jstr name), ("arguments".data, .jobj args)])]), []) := by
    refine matchFenceAt_simple ?_ ?_ (encVal_not_mem_nl _)
    · intro c hc
      rw [show encVal (.jobj [("tool_call".data,
          .jobj [("name".data, .jstr name), ("arguments".data, .jobj args)])]) =
        '{' :: encMembers [("tool_call".data,
          .jobj [("name".data, .jstr name), ("arguments".data, .jobj args)])] from rfl] at hc
      cases hc
      decide
    · rw [show encVal (.jobj [("tool_call".data,
          .jobj [("name".data, .jstr name), ("arguments".data, .jobj args)])]) =
        '{' :: encMembers [("tool_call".data,
          .jobj [("name".data, .jstr name), ("arguments".data, .jobj args)])] from rfl]
      exact List.cons_ne_nil _ _
  have hblock : parseJSONBlock (encVal (.jobj [("tool_call".data,
      .jobj [("name".data, .jstr name), ("arguments".data, .jobj args)])])) =
      some ⟨name, args⟩ := by
    rw [parseJSONBlock]
    simp +decide [jsonParseObj_encObj, jlookup]
  obtain ⟨f, hf⟩ : ∃ f, (renderFencedJson name args).length + 1 = f + 1 :=
    ⟨(renderFencedJson name args).length, rfl⟩
  rw [parseJSONToolCalls, hf, fenceBlocksF_step f h1 h2, fenceBlocksF_nil,
    List.filterMap_cons, hblock, List.filterMap_nil]

/-- The line-prefixed extractor recovers a rendered call, for names free of
newlines and of surrounding whitespace. -/
theorem parseText_renderLinePrefixed (name : List Char) (args : List (List Char × JValue))
    (hnl : '\n' ∉ name)
    (hh : ∀ c, name.head? = some c → isSpaceChar c = false)
    (hl : ∀ c, name.getLast? = some c → isSpaceChar c = false) :
    parseTextToolCalls (renderLinePrefixed name args) = [⟨name, args⟩] := by
  have hr : renderLinePrefixed name args =
      (useToolPrefix ++ ' ' :: name) ++ '\n' ::
        (argsLinePrefix ++ ' ' :: encVal (.jobj args)) := by
    rw [renderLinePrefixed]
    simp [List.append_assoc]
  have hsl : goSplitLines (renderLinePrefixed name args) =
      [useToolPrefix ++ ' ' :: name, argsLinePrefix ++ ' ' :: encVal (.jobj args)] := by
    rw [hr]
    refine goSplitLines_two ?_ ?_
    · intro hm
      rcases List.mem_append.mp hm with hm | hm
      · exact absurd hm (by decide)
      · rcases List.mem_cons.mp hm with h | h
        · exact absurd h (by decide)
        · exact hnl h
    · intro hm
      rcases List.mem_append.mp hm with hm | hm
      · exact absurd hm (by decide)
      · rcases List.mem_cons.mp hm with h | h
        · exact absurd h (by decide)
        · exact encVal_not_mem_nl _ h
  have hline2a : trimSpace (argsLinePrefix ++ ' ' :: encVal (.jobj args)) =
      argsLinePrefix ++ ' ' :: encVal (.jobj args) := by
    refine trimSpace_eq_self ?_ ?_
    · intro c hc
      rw [show argsLinePrefix ++ ' ' :: encVal (.jobj args) =
        'A' :: ("RGS:".data ++ ' ' :: encVal (.jobj args)) from rfl] at hc
      cases hc
      decide
    · intro c hc
      rw [show argsLinePrefix ++ ' ' :: encVal (.jobj args) =
          (argsLinePrefix ++ [' ']) ++ encVal (.jobj args) from by simp,
        getLast?_ne_nil_append (ne_nil_of_getLast?_some (encObj_getLast args)),
        encObj_getLast args] at hc
      cases hc
      decide
  have hline2b : trimSpace (goTrimPrefix (argsLinePrefix ++ ' ' :: encVal (.jobj args))
      argsLinePrefix) = encVal (.jobj args) := by
    rw [goTrimPrefix, if_pos (isPrefixOf_append_self _ _), List.drop_left]
    refine trimSpace_space_cons ?_ ?_
    · intro c hc
      rw [show encVal (.jobj args) = '{' :: encMembers args from rfl] at hc
      cases hc
      decide
    · intro c hc
      rw [encObj_getLast args] at hc
      cases hc
      decide
  have hpre2 : goHasPrefix (trimSpace (argsLinePrefix ++ ' ' :: encVal (.jobj args)))
      argsLinePrefix = true := by
    rw [hline2a]
    exact isPrefixOf_append_self _ _
  rw [parseTextToolCalls, hsl, parseTextLoop]
  cases name with
  | nil =>
    rw [if_pos (show goHasPrefix (trimSpace (useToolPrefix ++ ' ' :: [])) useToolPrefix = true
        from by decide),
      if_pos hpre2, hline2a, hline2b, jsonParseObj_encObj]
    rw [show trimSpace (goTrimPrefix (trimSpace (useToolPrefix ++ ' ' :: []))
      useToolPrefix) = [] from by decide]
    rfl
  | cons c0 t0 =>
    have hline1 : trimSpace (useToolPrefix ++ ' ' :: (c0 :: t0)) =
        useToolPrefix ++ ' ' :: (c0 :: t0) := by
      refine trimSpace_eq_self ?_ ?_
      · intro c hc
        rw [show useToolPrefix ++ ' ' :: (c0 :: t0) =
          'U' :: ("SE_TOOL:".data ++ ' ' :: (c0 :: t0)) from rfl] at hc
        cases hc
        decide
      · intro c hc
        rw [show useToolPrefix ++ ' ' :: (c0 :: t0) =
            (useToolPrefix ++ [' ']) ++ (c0 :: t0) from by simp,
          getLast?_ne_nil_append (List.cons_ne_nil c0 t0)] at hc
        exact hl c hc
    rw [if_pos (by rw [hline1]; exact isPrefixOf_append_self _ _), if_pos hpre2, hline1]
    rw [goTrimPrefix, if_pos (isPrefixOf_append_self _ _), List.drop_left,
      trimSpace_space_cons hh hl, hline2a, hline2b, jsonParseObj_encObj]
    rfl

/-! ## Backend types, configuration and the agent loop

The `ollama` package's `Message` in src lacks the `ToolName` and `ToolCalls`
fields that the agent and the detector use; the current generation of that
file is missing from src. Modelled from the spec: a message additionally
carries the tool's name, and a response (and the detector's view of the
message) carries an optional structured tool-call list. -/

structure OMessage where
  role : String
  content : List Char
  toolName : List Char
  toolCalls : List ToolCallR

structure ChatResponse where
  message : OMessage
  toolCalls : List ToolCallR

structure OToolFunction where
  name : String
  description : List Char
  parameters : List (List Char × JValue)

structure OTool where
  type : String
  function : OToolFunction

structure ChatRequest where
  model : String
  messages : List OMessage
  tools : List OTool
  stream : Bool

/-- `config.ModelCapability`. -/
structure ModelCapability where
  supportsTools : Bool
  toolCallFormat : String
  maxTokens : Int
  recommendedFor : List String
deriving DecidableEq

/-- `config.Config`, restricted to the fields the verified operations read
(the prompt and benchmark tables are not consulted by any claim). -/
structure Config where
  ollamaURL : String
  defaultModel : String
  modelCapabilities : List (String × ModelCapability)

/-- Go map lookup on an ordered association list, last write wins. -/
def lookupStr {α : Type} (m : List (String × α)) (k : String) : Option α :=
  m.foldl (fun acc f => if f.1 = k then some f.2 else acc) none

/-- `Config.GetToolCallFormat` from `internal/config/config.go`: the recorded
format, defaulting to the `"text"` (line-prefixed `USE_TOOL:`/`ARGS:`)
fallback for unknown models. -/
def Config.GetToolCallFormat (c : Config) (modelName : String) : String :=
  match lookupStr c.modelCapabilities modelName with
  | some cap => cap.toolCallFormat
  | none => "text"

/-- `Config.ModelSupportsTools` from `internal/config/config.go`. -/
def Config.ModelSupportsTools (c : Config) (modelName : String) : Bool :=
  match lookupStr c.modelCapabilities modelName with
  | some cap => cap.supportsTools
  | none => false

/-- The agent's own state; the backend client and tool registry are passed
to the operations as oracles. -/
structure Agent where
  model : String
  messages : List OMessage
  toolCallFormat : String
  disabledTools : List String

/-- `agent.New`: the dialect is whatever the configuration records for the
model. -/
def agentNew (cfg : Config) (model : String) : Agent :=
  { model := model
    messages := []
    toolCallFormat := cfg.GetToolCallFormat model
    disabledTools := [] }

/-- `Agent.extractToolCalls`: native structured calls take precedence; else
the dialect-specific text parse. -/
def extractToolCalls (fmt : String) (resp : ChatResponse) : List ToolCallR :=
  if resp.toolCalls.length > 0 then resp.toolCalls
  else if fmt = "xml" then parseXMLToolCalls resp.message.content
  else if fmt = "json" then parseJSONToolCalls resp.message.content
  else if fmt = "text" then parseTextToolCalls resp.message.content
  else []

/-- `Agent.executeToolCalls`: run each call through the registry oracle and
append a `tool`-role message per call; failures become
`Error executing tool <name>: <error>` texts. -/
def execCalls (regExec : List Char → List (List Char × JValue) → Except (List Char) (List Char))
    (tcs : List ToolCallR) (msgs : List OMessage) : List OMessage :=
  tcs.foldl (fun ms tc =>
    ms ++ [⟨"tool",
      (match regExec tc.name tc.args with
       | .ok result => result
       | .error e => "Error executing tool ".data ++ tc.name ++ ": ".data ++ e),
      tc.name, []⟩]) msgs

/-- The observable outcome of one `Agent.Chat` call: the final message
state, the result (final assistant content or the turn-ending error), and
how many backend chat requests were made. -/
structure ChatOutcome where
  messages : List OMessage
  result : Except (List Char) (List Char)
  requests : Nat

/-- The bounded loop inside `Agent.Chat` (`maxIterations = 10`), with the
backend modelled as an oracle from the current message list and instrumented
with a request counter. -/
def chatIter (client : List OMessage → Except (List Char) ChatResponse)
    (regExec : List Char → List (List Char × JValue) → Except (List Char) (List Char))
    (fmt : String) : Nat → List OMessage → Nat → ChatOutcome
  | 0, msgs, reqs => ⟨msgs, .error ("max iterations reached without completion".data), reqs⟩
  | n + 1, msgs, reqs =>
    match client msgs with
    | .error e => ⟨msgs, .error ("chat request: ".data ++ e), reqs + 1⟩
    | .ok resp =>
      if (extractToolCalls fmt resp).length = 0 then
        ⟨msgs ++ [resp.message], .ok resp.message.content, reqs + 1⟩
      else
        chatIter client regExec fmt n
          (execCalls regExec (extractToolCalls fmt resp) (msgs ++ [resp.message])) (reqs + 1)

/-- `Agent.Chat`: append the user message and run at most 10 iterations. -/
def agentChat (client : List OMessage → Except (List Char) ChatResponse)
    (regExec : List Char → List (List Char × JValue) → Except (List Char) (List Char))
    (a : Agent) (userMessage : List Char) : ChatOutcome :=
  chatIter client regExec a.toolCallFormat 10
    (a.messages ++ [⟨"user", userMessage, [], []⟩]) 0

/-! ## The capability detector (`internal/benchmark`, detector file) -/

/-- The `test_tool` schema of the native probe. -/
def detectorTestTool : OTool :=
  ⟨"function", ⟨"test_tool", "A test tool".data,
    [("type".data, .jstr "object".data),
     ("properties".data, .jobj
       [("test".data, .jobj
         [("type".data, .jstr "string".data),
          ("description".data, .jstr "A test parameter".data)])])]⟩⟩

def nativeProbeReq (modelName : String) : ChatRequest :=
  ⟨modelName, [⟨"user", "Use the test_tool with test='hello'".data, [], []⟩],
    [detectorTestTool], false⟩

def xmlProbePrompt : List Char :=
  ("You have access to a test_tool. To use it, respond with:\n<tool_call>\n<name>test_tool</name>\n<arguments>\x7b\"test\": \"hello\"\x7d</arguments>\n</tool_call>\n\nNow use the test_tool with test='hello'.").data

def xmlProbeReq (modelName : String) : ChatRequest :=
  ⟨modelName, [⟨"user", xmlProbePrompt, [], []⟩], [], false⟩

def jsonProbePrompt : List Char :=
  ("You have access to a test_tool. To use it, respond with a JSON block:\n'''json\n\x7b\n  \"tool_call\": \x7b\n    \"name\": \"test_tool\",\n    \"arguments\": \x7b\"test\": \"hello\"\x7d\n  \x7d\n\x7d\n'''\n\nNow use the test_tool with test='hello'.").data

def jsonProbeReq (modelName : String) : ChatRequest :=
  ⟨modelName, [⟨"user", jsonProbePrompt, [], []⟩], [], false⟩

/-- `Detector.testNativeTools`: a transport error is a failed probe;
success means the response message carries structured tool calls. -/
def testNativeTools (chat : ChatRequest → Except (List Char) ChatResponse)
    (modelName : String) : Bool :=
  match chat (nativeProbeReq modelName) with
  | .error _ => false
  | .ok resp => resp.message.toolCalls.length > 0

/-- `Detector.testXMLFormat`. -/
def testXMLFormat (chat : ChatRequest → Except (List Char) ChatResponse)
    (modelName : String) : Bool :=
  match chat (xmlProbeReq modelName) with
  | .error _ => false
  | .ok resp =>
    containsSub ("<tool_call>".data) resp.message.content &&
      containsSub ("<name>test_tool</name>".data) resp.message.content

/-- `Detector.testJSONFormat`. -/
def testJSONFormat (chat : ChatRequest → Except (List Char) ChatResponse)
    (modelName : String) : Bool :=
  match chat (jsonProbeReq modelName) with
  | .error _ => false
  | .ok resp =>
    containsSub ("tool_call".data) resp.message.content &&
      containsSub ("test_tool".data) resp.message.content

/-- `Detector.DetectCapabilities`: native, then tagged-XML, then
fenced-JSON, then the `"text"` default. (The progress channel is a pure
side-effect and is not modelled.) -/
def detectCapabilities (chat : ChatRequest → Except (List Char) ChatResponse)
    (modelName : String) : ModelCapability :=
  if testNativeTools chat modelName then ⟨true, "native", 0, []⟩
  else if testXMLFormat chat modelName then ⟨false, "xml", 0, []⟩
  else if testJSONFormat chat modelName then ⟨false, "json", 0, []⟩
  else ⟨false, "text", 0, []⟩

/-! ## Paths (`path/filepath` on Unix)

Paths are modelled as their `/`-separated component lists. `Clean`, `Abs`
and `Rel` are translated for the slash-separated Unix shape the code runs
on; `Abs` is total here (on Unix it only fails when `Getwd` does). -/

/-- Split on `/`, keeping empty fields (they are dropped by the cleaner). -/
def splitSlashF : Nat → List Char → List (List Char)
  | 0, l => [l]
  | fuel + 1, l =>
    match splitOnFirst ['/'] l with
    | none => [l]
    | some (a, b) => a :: splitSlashF fuel b

def splitPathComps (s : List Char) : List (List Char) :=
  (splitSlashF (s.length + 1) s).filter (fun c => !c.isEmpty)

def isAbsPath (s : List Char) : Bool :=
  s.head? = some '/'

/-- One step of `filepath.Clean`'s component walk: drop `.`, resolve `..`
against the accumulated components (at the root of an absolute path a `..`
vanishes; in a relative path leading `..`s are kept). -/
def cleanStep (absp : Bool) (acc : List (List Char)) (comp : List Char) : List (List Char) :=
  if comp = ['.'] then acc
  else if comp = ['.', '.'] then
    if acc = [] then (if absp then [] else [comp])
    else if acc.getLast? = some ['.', '.'] then acc ++ [comp]
    else acc.dropLast
  else acc ++ [comp]

def cleanComps (absp : Bool) (comps : List (List Char)) : List (List Char) :=
  comps.foldl (cleanStep absp) []

def joinSlash : List (List Char) → List Char
  | [] => []
  | c :: rest => c ++ rest.foldl (fun acc x => acc ++ '/' :: x) []

/-- `filepath.Clean` as a string transformer. -/
def cleanPathStr (s : List Char) : List Char :=
  let absp := isAbsPath s
  let comps := cleanComps absp (splitPathComps s)
  if absp then '/' :: joinSlash comps
  else if comps = [] then ['.']
  else joinSlash comps

/-- `filepath.Abs` against a working directory given as cleaned absolute
components: absolute paths are cleaned, relative ones are resolved under
the working directory. -/
def absPathComps (wd : List (List Char)) (s : List Char) : List (List Char) :=
  if isAbsPath s then cleanComps true (splitPathComps s)
  else cleanComps true (wd ++ splitPathComps s)

def stripCommon : List (List Char) → List (List Char) → List (List Char) × List (List Char)
  | b :: bs, t :: ts => if b = t then stripCommon bs ts else (b :: bs, t :: ts)
  | bs, ts => (bs, ts)

/-- `filepath.Rel base target` on cleaned absolute component lists: climb
out of the uncommon part of the base, then descend into the target. -/
def relComps (base target : List (List Char)) : List (List Char) :=
  let p := stripCommon base target
  List.replicate p.1.length ['.', '.'] ++ p.2

/-- `strings.HasPrefix(rel, "..")` on the component form: the rendered
relative path starts with the two characters `..` exactly when its first
component does (components are non-empty and slash-free). -/
def relHasDotDotPrefix (comps : List (List Char)) : Bool :=
  match comps with
  | [] => false
  | c :: _ => (['.', '.']).isPrefixOf c

/-! ## `filepath.Match` (glob patterns)

Translated from Go's `path/filepath/match.go` restricted to what the gate
observes: the call site treats `ErrBadPattern` the same as a non-match
(`err == nil && matched`), so the translation returns `false` where Go
reports either `false` or an error, and the post-failure pattern-validity
rescan (which can only turn a non-match into an error) is omitted. -/

/-- Leading-star consumption in `scanChunk`. -/
def dropStars : List Char → Bool × List Char
  | '*' :: t => (true, (dropStars t).2)
  | l => (false, l)

/-- The chunk length scanned by `scanChunk`: up to the next `*` outside a
bracket class, with `\\` escaping the following character. -/
def scanChunkIdx : Nat → List Char → Bool → Nat
  | 0, _, _ => 0
  | fuel + 1, l, inrange =>
    match l with
    | [] => 0
    | c :: t =>
      if c = '\\' then
        match t with
        | [] => 1
        | _ :: t2 => 2 + scanChunkIdx fuel t2 inrange
      else if c = '[' then 1 + scanChunkIdx fuel t true
      else if c = ']' then 1 + scanChunkIdx fuel t false
      else if c = '*' && !inrange then 0
      else 1 + scanChunkIdx fuel t inrange

def scanChunk (p : List Char) : Bool × List Char × List Char :=
  let s := dropStars p
  let i := scanChunkIdx (s.2.length + 1) s.2 false
  (s.1, s.2.take i, s.2.drop i)

/-- `getEsc`: one (possibly escaped) class character; unescaped `-` and `]`
are pattern errors here, mapped to `none`. -/
def getEsc : List Char → Option (Char × List Char)
  | [] => none
  | '-' :: _ => none
  | ']' :: _ => none
  | '\\' :: rest =>
    match rest with
    | [] => none
    | c :: t => some (c, t)
  | c :: t => some (c, t)

/-- Parse the ranges of a `[...]` class (after any `^`), requiring at least
one range before the closing `]`. -/
def parseRangesF : Nat → List Char → List (Char × Char) → Bool →
    Option (List (Char × Char) × List Char)
  | 0, _, _, _ => none
  | fuel + 1, l, acc, first =>
    match l with
    | ']' :: rest => if first then none else some (acc, rest)
    | _ =>
      match getEsc l with
      | none => none
      | some (lo, rest) =>
        match rest with
        | '-' :: rest2 =>
          match getEsc rest2 with
          | none => none
          | some (hi, rest3) => parseRangesF fuel rest3 (acc ++ [(lo, hi)]) false
        | _ => parseRangesF fuel rest (acc ++ [(lo, lo)]) false

def parseClass (l : List Char) : Option (Bool × List (Char × Char) × List Char) :=
  match l with
  | '^' :: t =>
    match parseRangesF (t.length + 1) t [] true with
    | none => none
    | some (rs, rest) => some (true, rs, rest)
  | _ =>
    match parseRangesF (l.length + 1) l [] true with
    | none => none
    | some (rs, rest) => some (false, rs, rest)

/-- `matchChunk`: match a star-free chunk against the head of `s`,
returning the unmatched remainder on success. -/
def matchChunkB : Nat → List Char → List Char → Option (List Char)
  | 0, _, _ => none
  | fuel + 1, chunk, s =>
    match chunk with
    | [] => some s
    | c :: chunkRest =>
      if c = '[' then
        -- a character class may match any character, the separator included:
        -- only the `?` case guards against `/`
        match s with
        | [] => none
        | sc :: srest =>
          match parseClass chunkRest with
          | none => none
          | some (neg, ranges, chunkRest2) =>
            if (ranges.any fun r => decide (r.1 ≤ sc) && decide (sc ≤ r.2)) ≠ neg then
              matchChunkB fuel chunkRest2 srest
            else none
      else if c = '?' then
        match s with
        | [] => none
        | sc :: srest => if sc = '/' then none else matchChunkB fuel chunkRest srest
      else if c = '\\' then
        match chunkRest with
        | [] => none
        | ec :: chunkRest2 =>
          match s with
          | [] => none
          | sc :: srest => if sc = ec then matchChunkB fuel chunkRest2 srest else none
      else
        match s with
        | [] => none
        | sc :: srest => if sc = c then matchChunkB fuel chunkRest srest else none

mutual

/-- The `Pattern:` loop of `filepath.Match`. -/
def goMatchF : Nat → List Char → List Char → Bool
  | 0, _, _ => false
  | fuel + 1, pattern, name =>
    match pattern with
    | [] => name.isEmpty
    | _ =>
      let sc := scanChunk pattern
      if sc.1 && sc.2.1.isEmpty then
        -- a trailing `*` matches the rest of the name unless it has a `/`
        !(name.contains '/')
      else
        match matchChunkB (sc.2.1.length + name.length + 1) sc.2.1 name with
        | some t =>
          if t.isEmpty || !sc.2.2.isEmpty then goMatchF fuel sc.2.2 t
          else if sc.1 then goMatchStarF fuel sc.2.1 sc.2.2 name
          else false
        | none =>
          if sc.1 then goMatchStarF fuel sc.2.1 sc.2.2 name
          else false

/-- The star backtracking loop: try the chunk at every later offset of the
name, stopping at a `/`. -/
def goMatchStarF : Nat → List Char → List Char → List Char → Bool
  | 0, _, _, _ => false
  | fuel + 1, chunk, rest, name =>
    match name with
    | [] => false
    | c :: t =>
      if c = '/' then false
      else
        match matchChunkB (chunk.length + t.length + 1) chunk t with
        | some t2 =>
          if rest.isEmpty && !t2.isEmpty then goMatchStarF fuel chunk rest t
          else goMatchF fuel rest t2
        | none => goMatchStarF fuel chunk rest t

end

def goMatch (pattern name : List Char) : Bool :=
  goMatchF (pattern.length + name.length + 1) pattern name

/-! ## The permission gate (`internal/tools/permissions.go`) -/

inductive PermissionLevel where
  | safe
  | read
  | write
  | execute
  | network
deriving DecidableEq

structure PermissionPattern where
  tool : String
  pathPattern : List Char
  commandPattern : List Char
  alwaysAllow : Bool
  enabled : Bool

structure PermissionConfig where
  autoApproveSafe : Bool
  autoApproveRead : Bool
  requireApprovalWrite : Bool
  requireApprovalExecute : Bool
  requireApprovalNetwork : Bool
  blockedCommands : List (List Char)
  alwaysAllowPatterns : List PermissionPattern
  restrictToWorkingDir : Bool

/-- `DefaultPermissionConfig` (unset Go fields take their zero values). -/
def defaultPermissionConfig : PermissionConfig :=
  { autoApproveSafe := true
    autoApproveRead := true
    requireApprovalWrite := true
    requireApprovalExecute := true
    requireApprovalNetwork := false
    blockedCommands :=
      ["rm -rf /".data, "dd if=".data, "mkfs".data,
       ":()\x7b :|:& \x7d;:".data, "> /dev/sda".data]
    alwaysAllowPatterns := []
    restrictToWorkingDir := false }

/-- A wrapped tool: its registry name and its `Execute`, the latter an
oracle from the argument object to a result or a Go error. -/
structure GoTool where
  name : String
  exec : List (List Char × JValue) → Except (List Char) (List Char)

/-- The target-path extraction at the top of `ProtectedTool.Execute`:
`path`, else `file_path`, else `command`, each only when the value is a
string; otherwise empty. -/
def gateTargetPath (args : List (List Char × JValue)) : List Char :=
  match jlookup args ("path".data) with
  | some (.jstr s) => s
  | _ =>
    match jlookup args ("file_path".data) with
    | some (.jstr s) => s
    | _ =>
      match jlookup args ("command".data) with
      | some (.jstr s) => s
      | _ => []

/-- `checkWorkingDirRestriction`, against a working directory given as
cleaned absolute components: `none` when the access is allowed, `some err`
with the Go error text otherwise. -/
def checkWorkingDirRestriction (wd : List (List Char)) (targetPath : List Char) :
    Option (List Char) :=
  if targetPath = [] then none
  else if relHasDotDotPrefix (relComps wd (absPathComps wd targetPath)) then
    some ("access denied: path '".data ++ targetPath ++
      "' is outside working directory '".data ++ ('/' :: joinSlash wd) ++ "'".data)
  else none

/-- The working-directory guard as `ProtectedTool.Execute` applies it. -/
def gateWdErr (cfg : PermissionConfig) (wd : List (List Char))
    (args : List (List Char × JValue)) : Option (List Char) :=
  if cfg.restrictToWorkingDir && !(gateTargetPath args).isEmpty then
    checkWorkingDirRestriction wd (gateTargetPath args)
  else none

/-- `matchesAlwaysAllowPattern`. The Go loop's `continue`/`return true`
shape is the disjunction over patterns of the guarded conditions. -/
def matchesAlwaysAllowPattern (cfg : PermissionConfig) (toolName : String)
    (targetPath : List Char) : Bool :=
  cfg.alwaysAllowPatterns.any fun pattern =>
    pattern.enabled &&
    (pattern.tool = "*" || pattern.tool = toolName) &&
    (pattern.alwaysAllow ||
     (!pattern.commandPattern.isEmpty && toolName = "run_command" &&
       !targetPath.isEmpty &&
       (goFields targetPath).head? = some pattern.commandPattern) ||
     (!pattern.pathPattern.isEmpty && !targetPath.isEmpty &&
       (goMatch pattern.pathPattern targetPath ||
        goHasPrefix (cleanPathStr targetPath) (cleanPathStr pattern.pathPattern))))

/-- The `needsApproval` switch on the tool's permission level. -/
def gateNeedsApproval (cfg : PermissionConfig) : PermissionLevel → Bool
  | .safe => !cfg.autoApproveSafe
  | .read => !cfg.autoApproveRead
  | .write => cfg.requireApprovalWrite
  | .execute => cfg.requireApprovalExecute
  | .network => cfg.requireApprovalNetwork

/-- The blocked-command scan: only for a tool named `run_command`, only on
a string-valued `command` argument, first configured substring hit wins. -/
def gateBlockedHit (toolName : String) (cfg : PermissionConfig)
    (args : List (List Char × JValue)) : Option (List Char) :=
  if toolName = "run_command" then
    match jlookup args ("command".data) with
    | some (.jstr cmd) => cfg.blockedCommands.find? fun b => containsSub b cmd
    | _ => none
  else none

instance exceptDecEq {ε α : Type} [DecidableEq ε] [DecidableEq α] :
    DecidableEq (Except ε α) := fun a b =>
  match a, b with
  | .error e, .error f =>
    if h : e = f then .isTrue (congrArg Except.error h)
    else .isFalse (fun hc => h (Except.error.inj hc))
  | .ok x, .ok y =>
    if h : x = y then .isTrue (congrArg Except.ok h)
    else .isFalse (fun hc => h (Except.ok.inj hc))
  | .error _, .ok _ => .isFalse Except.noConfusion
  | .ok _, .error _ => .isFalse Except.noConfusion

/-- What a `ProtectedTool.Execute` call produced, instrumented with whether
the wrapped tool's own `Execute` was invoked. -/
structure GateResult where
  result : Except (List Char) (List Char)
  invoked : Bool
deriving DecidableEq

/-- `ProtectedTool.Execute`. The permission checker is `none` when no
checker is configured, otherwise an oracle returning the user's decision or
an error; the argument-printing in `details` ("Args: %v", whose map order
Go does not fix) is elided, and the checker oracle just receives the tool
name and level. -/
def protectedExecute (tool : GoTool) (level : PermissionLevel)
    (checker : Option (String → PermissionLevel → Except (List Char) Bool))
    (cfg : PermissionConfig) (wd : List (List Char))
    (args : List (List Char × JValue)) : GateResult :=
  match gateWdErr cfg wd args with
  | some err => ⟨.error err, false⟩
  | none =>
    if matchesAlwaysAllowPattern cfg tool.name (gateTargetPath args) then
      ⟨tool.exec args, true⟩
    else
      match gateBlockedHit tool.name cfg args with
      | some b => ⟨.error ("blocked command pattern detected: ".data ++ b), false⟩
      | none =>
        if gateNeedsApproval cfg level then
          match checker with
          | some ck =>
            match ck tool.name level with
            | .error e => ⟨.error ("permission check failed: ".data ++ e), false⟩
            | .ok false => ⟨.error ("permission denied by user".data), false⟩
            | .ok true => ⟨tool.exec args, true⟩
          | none => ⟨tool.exec args, true⟩
        else ⟨tool.exec args, true⟩

/-! ## The shell tool (`internal/tools/bash.go`, registry name `run_command`) -/

/-- `BashTool.Execute`. The executor oracle returns the subprocess's
captured output, exit code, and Go-level error (if any); a missing executor
is `none`. A non-zero exit is reported inside the output string — the
function's own error result stays `ok`. -/
def bashExecute (executor : Option (List Char → List Char × Int × Option (List Char)))
    (args : List (List Char × JValue)) : Except (List Char) (List Char) :=
  match jlookup args ("command".data) with
  | some (.jstr command) =>
    match executor with
    | none => .error ("no command executor configured".data)
    | some ex =>
      match ex command with
      | (output, exitCode, some e) =>
        .ok (output ++ "\n\nExit code: ".data ++ intRepr exitCode ++
          "\nError: ".data ++ e)
      | (output, exitCode, none) =>
        .ok (output ++ "\n\nExit code: ".data ++ intRepr exitCode)
  | _ => .error ("command must be a string".data)

/-! ## Custom command-line tools (`CustomCommandTool`) -/

structure CommandParam where
  name : List Char
  type : String
  description : List Char
  required : Bool

structure CustomCommandTool where
  name : List Char
  description : List Char
  command : List Char
  params : List CommandParam

/-- The per-parameter stringification in `CustomCommandTool.Execute`:
strings verbatim, numbers and booleans via `%v` (the model's JSON numbers
are integers, and `%v` of an integral `float64` prints its digits), all
other values through `json.Marshal` (which cannot fail on decoded JSON
values, so the Go error branch is dead here). -/
def paramValueStr : JValue → List Char
  | .jstr s => s
  | .jnum n => intRepr n
  | .jbool true => "true".data
  | .jbool false => "false".data
  | v => encVal v

/-- The placeholder-substitution loop of `CustomCommandTool.Execute`: walk
the declared parameters in order, replacing every `\x7b\x7b<name>\x7d\x7d`
occurrence; a missing required parameter aborts, a missing optional one
substitutes the empty string. -/
def buildCommand (args : List (List Char × JValue)) :
    List CommandParam → List Char → Except (List Char) (List Char)
  | [], cmd => .ok cmd
  | p :: ps, cmd =>
    match jlookup args p.name with
    | some v =>
      buildCommand args ps
        (goReplaceAll cmd ("\x7b\x7b".data ++ p.name ++ "\x7d\x7d".data) (paramValueStr v))
    | none =>
      if p.required then .error ("missing required parameter: ".data ++ p.name)
      else
        buildCommand args ps
          (goReplaceAll cmd ("\x7b\x7b".data ++ p.name ++ "\x7d\x7d".data) [])

/-- `CustomCommandTool.Execute`: build the command, run it through the
`sh -c` oracle (output, optional error), and report which command string
was handed to the shell (`none` when no subprocess was spawned). -/
def customCommandExecute (sh : List Char → List Char × Option (List Char))
    (t : CustomCommandTool) (args : List (List Char × JValue)) :
    Except (List Char) (List Char) × Option (List Char) :=
  match buildCommand args t.params t.command with
  | .error e => (.error e, none)
  | .ok cmd =>
    match sh cmd with
    | (output, some e) =>
      (.error ("command failed: ".data ++ e ++ "\nOutput: ".data ++ output), some cmd)
    | (output, none) => (.ok output, some cmd)

/-! ## MCP tool wrappers (`internal/mcp/tool_wrapper.go`) -/

structure MCPTool where
  name : List Char
  description : List Char
  inputSchema : List (List Char × JValue)

structure MCPToolWrapper where
  serverName : List Char
  mcpTool : MCPTool
  fullName : List Char
  description : List Char

/-- `NewMCPToolWrapper`: the local name is the original tool name prefixed
with `mcp_<server>_`, and the description is annotated with the server. -/
def newMCPToolWrapper (serverName : List Char) (t : MCPTool) : MCPToolWrapper :=
  ⟨serverName, t,
    "mcp_".data ++ serverName ++ "_".data ++ t.name,
    "[MCP: ".data ++ serverName ++ "] ".data ++ t.description⟩

/-- A JSON-RPC request as `MCPClient.CallTool` builds it (the params map is
marshalled with Go's sorted map keys: `arguments` before `name`). -/
structure MCPRequest where
  jsonrpc : List Char
  id : Int
  method : List Char
  params : JValue

def mcpCallToolRequest (idv : Int) (toolName : List Char)
    (arguments : List (List Char × JValue)) : MCPRequest :=
  ⟨"2.0".data, idv, "tools/call".data,
    .jobj [("arguments".data, .jobj arguments), ("name".data, .jstr toolName)]⟩

/-- Decoding one entry of the result's `content` array into the
`Type`/`Text` pair, as `json.Unmarshal` into the anonymous struct would:
missing or `null` fields give the empty string, a wrongly-typed field or a
non-object entry is a parse error. -/
def decodeStrField (fs : List (List Char × JValue)) (k : List Char) :
    Option (List Char) :=
  match jlookup fs k with
  | none => some []
  | some .jnull => some []
  | some (.jstr s) => some s
  | some _ => none

def decodeContentEntry : JValue → Option (List Char × List Char)
  | .jobj fs =>
    match decodeStrField fs ("type".data) with
    | none => none
    | some ty =>
      match decodeStrField fs ("text".data) with
      | none => none
      | some tx => some (ty, tx)
  | .jnull => some ([], [])
  | _ => none

def mcpDecodeContent : List JValue → Option (List (List Char × List Char))
  | [] => some []
  | v :: rest =>
    match decodeContentEntry v with
    | none => none
    | some e =>
      match mcpDecodeContent rest with
      | none => none
      | some es => some (e :: es)

/-- `MCPClient.CallTool` with the transport (`sendRequest`, which already
surfaces JSON-RPC errors as Go errors) as an oracle from the request to the
decoded `result` value. The parse-failure text elides the wrapped
`json.Unmarshal` cause. -/
def mcpCallTool (send : MCPRequest → Except (List Char) JValue) (idv : Int)
    (toolName : List Char) (arguments : List (List Char × JValue)) :
    Except (List Char) (List Char) :=
  match send (mcpCallToolRequest idv toolName arguments) with
  | .error e => .error e
  | .ok result =>
    match result with
    | .jobj fs =>
      match jlookup fs ("content".data) with
      | none => .ok []
      | some .jnull => .ok []
      | some (.jarr entries) =>
        match mcpDecodeContent entries with
        | none => .error ("failed to parse tool result".data)
        | some es =>
          .ok (es.foldl (fun acc e => if e.1 = "text".data then acc ++ e.2 else acc) [])
      | some _ => .error ("failed to parse tool result".data)
    | .jnull => .ok []
    | _ => .error ("failed to parse tool result".data)

/-- `MCPToolWrapper.Execute`: call the server with the original
(unprefixed) tool name. -/
def mcpWrapperExecute (send : MCPRequest → Except (List Char) JValue) (idv : Int)
    (w : MCPToolWrapper) (args : List (List Char × JValue)) :
    Except (List Char) (List Char) :=
  mcpCallTool send idv w.mcpTool.name args

/-! ## The claims -/

/-- A permission configuration whose only always-allow pattern is an
enabled catch-all (`Tool = "*"`, `AlwaysAllow = true`). -/
def alwaysAllowAllCfg : PermissionConfig :=
  { defaultPermissionConfig with alwaysAllowPatterns := [⟨"*", [], [], true, true⟩] }

/-- A `run_command` tool whose execution is observable. -/
def runCommandProbe : GoTool := ⟨"run_command", fun _ => .ok ("ran".data)⟩

/-- C1 (amended): the blocked-command scan does fire — returning the
`blocked command pattern detected` error with the tool not invoked — but
only behind two earlier exits the claim does not mention: the always-allow
patterns are consulted first (a match executes the tool directly, skipping
the scan), and the scan itself keys on the registry name `run_command`.
Under "no always-allow match" (and the working-directory guard passing),
a command containing a configured blocked substring is rejected before the
tool runs. -/
theorem gate_blocked_command_requires_no_always_allow
    (tool : GoTool) (level : PermissionLevel)
    (checker : Option (String → PermissionLevel → Except (List Char) Bool))
    (cfg : PermissionConfig) (wd : List (List Char))
    (args : List (List Char × JValue)) (cmd b : List Char)
    (hname : tool.name = "run_command")
    (hcmd : jlookup args ("command".data) = some (.jstr cmd))
    (hwd : gateWdErr cfg wd args = none)
    (hallow : matchesAlwaysAllowPattern cfg tool.name (gateTargetPath args) = false)
    (hfound : cfg.blockedCommands.find? (fun x => containsSub x cmd) = some b) :
    protectedExecute tool level checker cfg wd args =
      ⟨.error ("blocked command pattern detected: ".data ++ b), false⟩ := by
  have hbh : gateBlockedHit tool.name cfg args = some b := by
    rw [gateBlockedHit, hname, if_pos rfl, hcmd]
    exact hfound
  rw [protectedExecute.eq_def, hwd, hallow]
  simp only [Bool.false_eq_true, if_false, hbh]

/-- C1 witness: with the default configuration (no always-allow patterns),
`run_command` on `rm -rf /` is blocked and never executed. -/
theorem gate_blocked_command_witness :
    protectedExecute runCommandProbe .execute none defaultPermissionConfig []
      [("command".data, .jstr ("rm -rf /".data))] =
      ⟨.error ("blocked command pattern detected: rm -rf /".data), false⟩ :=
  gate_blocked_command_requires_no_always_allow runCommandProbe .execute none
    defaultPermissionConfig [] [("command".data, .jstr ("rm -rf /".data))]
    ("rm -rf /".data) ("rm -rf /".data) rfl rfl rfl rfl rfl

/-- C1 counterexample: with an enabled catch-all always-allow pattern, the
very same `rm -rf /` call runs the underlying tool (the blocked-command
scan is never reached), refuting the claim's "for every call". -/
theorem gate_always_allow_bypasses_blocked_scan :
    containsSub ("rm -rf /".data) ("rm -rf /".data) = true ∧
    "rm -rf /".data ∈ alwaysAllowAllCfg.blockedCommands ∧
    protectedExecute runCommandProbe .execute none alwaysAllowAllCfg []
      [("command".data, .jstr ("rm -rf /".data))] = ⟨.ok ("ran".data), true⟩ :=
  ⟨by decide, by decide, rfl⟩

/-- C2: when the permission level requires approval but no checker is
configured (`pt.checker == nil`), and no always-allow pattern, blocked
command or working-directory denial applies, `ProtectedTool.Execute` runs
the wrapped tool and returns its result — the approval step is silently
skipped, with no `permission denied by user` error. -/
theorem gate_nil_checker_skips_approval
    (tool : GoTool) (level : PermissionLevel) (cfg : PermissionConfig)
    (wd : List (List Char)) (args : List (List Char × JValue))
    (hwd : gateWdErr cfg wd args = none)
    (hallow : matchesAlwaysAllowPattern cfg tool.name (gateTargetPath args) = false)
    (hblock : gateBlockedHit tool.name cfg args = none)
    (hneed : gateNeedsApproval cfg level = true) :
    protectedExecute tool level none cfg wd args = ⟨tool.exec args, true⟩ := by
  rw [protectedExecute.eq_def, hwd, hallow]
  simp only [Bool.false_eq_true, if_false, hblock, hneed, if_true]

/-- C2 witness: a write-level tool under the default configuration (which
requires approval for writes) with no checker: the tool runs. -/
theorem gate_nil_checker_witness :
    protectedExecute ⟨"write_file", fun _ => .ok ("done".data)⟩ .write none
      defaultPermissionConfig [] [("path".data, .jstr ("f.txt".data))] =
      ⟨.ok ("done".data), true⟩ :=
  gate_nil_checker_skips_approval ⟨"write_file", fun _ => .ok ("done".data)⟩ .write
    defaultPermissionConfig [] [("path".data, .jstr ("f.txt".data))] rfl rfl rfl rfl

/-- C3: a model with no capability entry gets the `"text"` tool-call
format — the line-prefixed `USE_TOOL:`/`ARGS:` dialect: with no structured
calls in a response, the agent's extractor for that format is exactly the
line-prefixed parser. -/
theorem agent_default_dialect_text (cfg : Config) (model : String)
    (h : lookupStr cfg.modelCapabilities model = none) :
    (agentNew cfg model).toolCallFormat = "text" ∧
    ∀ resp : ChatResponse, resp.toolCalls = [] →
      extractToolCalls (agentNew cfg model).toolCallFormat resp =
        parseTextToolCalls resp.message.content := by
  have hfmt : (agentNew cfg model).toolCallFormat = "text" := by
    rw [agentNew]
    rw [Config.GetToolCallFormat, h]
  refine ⟨hfmt, fun resp hr => ?_⟩
  rw [hfmt, extractToolCalls, hr]
  simp

/-- C3 witness: the empty configuration at model `m`. -/
theorem agent_default_dialect_witness :
    (agentNew ⟨"http://localhost:11434", "", []⟩ "m").toolCallFormat = "text" ∧
    extractToolCalls
      (agentNew ⟨"http://localhost:11434", "", []⟩ "m").toolCallFormat
      ⟨⟨"assistant", [], [], []⟩, []⟩ = parseTextToolCalls [] := by
  have h := agent_default_dialect_text ⟨"http://localhost:11434", "", []⟩ "m" rfl
  exact ⟨h.1, h.2 ⟨⟨"assistant", [], [], []⟩, []⟩ rfl⟩

theorem chatIter_requests_le
    (client : List OMessage → Except (List Char) ChatResponse)
    (regExec : List Char → List (List Char × JValue) → Except (List Char) (List Char))
    (fmt : String) :
    ∀ (n : Nat) (msgs : List OMessage) (reqs : Nat),
      (chatIter client regExec fmt n msgs reqs).requests ≤ reqs + n := by
  intro n
  induction n with
  | zero => intro msgs reqs; rw [chatIter]; exact Nat.le_refl _
  | succ n ih =>
    intro msgs reqs
    rw [chatIter]
    cases hc : client msgs with
    | error e => dsimp only; omega
    | ok resp =>
      dsimp only
      by_cases h0 : (extractToolCalls fmt resp).length = 0
      · rw [if_pos h0]; dsimp only; omega
      · rw [if_neg h0]
        calc (chatIter client regExec fmt n
                (execCalls regExec (extractToolCalls fmt resp) (msgs ++ [resp.message]))
                (reqs + 1)).requests
            ≤ (reqs + 1) + n := ih _ _
          _ = reqs + (n + 1) := by omega

theorem chatIter_forced
    (client : List OMessage → Except (List Char) ChatResponse)
    (regExec : List Char → List (List Char × JValue) → Except (List Char) (List Char))
    (fmt : String)
    (hok : ∀ msgs, ∃ r, client msgs = .ok r)
    (htc : ∀ msgs r, client msgs = .ok r → extractToolCalls fmt r ≠ []) :
    ∀ (n : Nat) (msgs : List OMessage) (reqs : Nat),
      (chatIter client regExec fmt n msgs reqs).result =
          .error ("max iterations reached without completion".data) ∧
        (chatIter client regExec fmt n msgs reqs).requests = reqs + n := by
  intro n
  induction n with
  | zero => intro msgs reqs; rw [chatIter]; exact ⟨rfl, rfl⟩
  | succ n ih =>
    intro msgs reqs
    obtain ⟨r, hc⟩ := hok msgs
    have hne : (extractToolCalls fmt r).length ≠ 0 := by
      intro h0
      exact htc msgs r hc (List.length_eq_zero.mp h0)
    rw [chatIter, hc]
    dsimp only
    rw [if_neg hne]
    refine ⟨(ih _ _).1, ?_⟩
    rw [(ih _ _).2]
    omega

/-- C4: one `Agent.Chat` call issues at most 10 backend requests; and when
every response the backend returns carries at least one extractable tool
call, the turn ends with the `max iterations reached without completion`
error after exactly 10 requests (so no further request is made). -/
theorem agent_chat_request_cap
    (client : List OMessage → Except (List Char) ChatResponse)
    (regExec : List Char → List (List Char × JValue) → Except (List Char) (List Char))
    (a : Agent) (userMessage : List Char) :
    (agentChat client regExec a userMessage).requests ≤ 10 ∧
    ((∀ msgs, ∃ r, client msgs = .ok r) →
     (∀ msgs r, client msgs = .ok r → extractToolCalls a.toolCallFormat r ≠ []) →
     (agentChat client regExec a userMessage).result =
         .error ("max iterations reached without completion".data) ∧
       (agentChat client regExec a userMessage).requests = 10) := by
  constructor
  · exact chatIter_requests_le client regExec a.toolCallFormat 10 _ 0
  · intro hok htc
    exact chatIter_forced client regExec a.toolCallFormat hok htc 10 _ 0

/-- A backend that always answers with one structured tool call. -/
def alwaysToolClient : List OMessage → Except (List Char) ChatResponse :=
  fun _ => .ok ⟨⟨"assistant", [], [], []⟩, [⟨"t".data, []⟩]⟩

/-- C4 witness: against `alwaysToolClient` the turn makes exactly 10
requests and fails with the max-iterations error. -/
theorem agent_chat_request_cap_witness :
    (agentChat alwaysToolClient (fun _ _ => .ok [])
        (agentNew ⟨"http://localhost:11434", "", []⟩ "m") ("hi".data)).requests ≤ 10 ∧
    (agentChat alwaysToolClient (fun _ _ => .ok [])
        (agentNew ⟨"http://localhost:11434", "", []⟩ "m") ("hi".data)).result =
      .error ("max iterations reached without completion".data) := by
  have h := agent_chat_request_cap alwaysToolClient (fun _ _ => .ok [])
    (agentNew ⟨"http://localhost:11434", "", []⟩ "m") ("hi".data)
  refine ⟨h.1, ?_⟩
  refine (h.2 (fun msgs => ⟨_, rfl⟩) (fun msgs r hc => ?_)).1
  cases hc
  simp [extractToolCalls]

/-- C5 (amended): the render/extract round trip holds for the three
non-native dialects for every argument object, but only for tool names
without `<` or newline characters and without leading or trailing
whitespace — not "for every tool name" as claimed: the XML name regex's
dot does not cross newlines and the extractors `TrimSpace` the captured
name, and the line-prefixed dialect splits on newlines. -/
theorem dialect_roundtrip_spacefree_names (name : List Char)
    (args : List (List Char × JValue))
    (hlt : '<' ∉ name) (hnl : '\n' ∉ name)
    (hh : ∀ c, name.head? = some c → isSpaceChar c = false)
    (hl : ∀ c, name.getLast? = some c → isSpaceChar c = false) :
    parseXMLToolCalls (renderTagged name args) = [⟨name, args⟩] ∧
    parseJSONToolCalls (renderFencedJson name args) = [⟨name, args⟩] ∧
    parseTextToolCalls (renderLinePrefixed name args) = [⟨name, args⟩] :=
  ⟨parseXML_renderTagged name args hlt hnl hh hl,
   parseJSON_renderFenced name args,
   parseText_renderLinePrefixed name args hnl hh hl⟩

/-- C5 witness: the round trip at the tool call
`read_file(path: "README.md")`. -/
theorem dialect_roundtrip_witness :
    parseXMLToolCalls (renderTagged ("read_file".data)
        [("path".data, .jstr ("README.md".data))]) =
      [⟨"read_file".data, [("path".data, .jstr ("README.md".data))]⟩] ∧
    parseJSONToolCalls (renderFencedJson ("read_file".data)
        [("path".data, .jstr ("README.md".data))]) =
      [⟨"read_file".data, [("path".data, .jstr ("README.md".data))]⟩] ∧
    parseTextToolCalls (renderLinePrefixed ("read_file".data)
        [("path".data, .jstr ("README.md".data))]) =
      [⟨"read_file".data, [("path".data, .jstr ("README.md".data))]⟩] :=
  dialect_roundtrip_spacefree_names ("read_file".data)
    [("path".data, .jstr ("README.md".data))]
    (by decide) (by decide)
    (fun c hc => by rw [show ("read_file".data).head? = some 'r' from rfl] at hc;
                    cases hc; rfl)
    (fun c hc => by rw [show ("read_file".data).getLast? = some 'e' from rfl] at hc;
                    cases hc; rfl)

/-- C5 counterexample: a tool name containing a newline renders in the
line-prefixed dialect, but the extractor returns nothing — the rendered
`USE_TOOL:` line is split at the embedded newline and the name no longer
matches, so the original pair is not recovered. -/
theorem text_dialect_newline_name_lost :
    parseTextToolCalls (renderLinePrefixed ('a' :: '\n' :: 'b' :: []) []) = [] ∧
    ([] : List ToolCallR) ≠ [⟨'a' :: '\n' :: 'b' :: [], []⟩] :=
  ⟨rfl, by simp⟩

/-- C6 (amended): the wrapper's local name prefixes the original tool name
with `mcp_<server>_` — not `ext_<server>_` as claimed; the description is
annotated `[MCP: <server>]`; invoking the wrapper sends a `tools/call`
request whose params carry the original (unprefixed) name; and when the
transport answers with a `content` array, the wrapper returns the
concatenation of its text-typed entries. -/
theorem mcp_wrapper_prefix_and_call (server : List Char) (t : MCPTool)
    (send : MCPRequest → Except (List Char) JValue) (idv : Int)
    (args : List (List Char × JValue)) (entries : List JValue) :
    (newMCPToolWrapper server t).fullName =
      "mcp_".data ++ server ++ "_".data ++ t.name ∧
    (newMCPToolWrapper server t).description =
      "[MCP: ".data ++ server ++ "] ".data ++ t.description ∧
    (mcpCallToolRequest idv t.name args).method = "tools/call".data ∧
    (mcpCallToolRequest idv t.name args).params =
      .jobj [("arguments".data, .jobj args), ("name".data, .jstr t.name)] ∧
    mcpWrapperExecute send idv (newMCPToolWrapper server t) args =
      mcpCallTool send idv t.name args ∧
    (∀ es, mcpDecodeContent entries = some es →
      send (mcpCallToolRequest idv t.name args) =
        .ok (.jobj [("content".data, .jarr entries)]) →
      mcpWrapperExecute send idv (newMCPToolWrapper server t) args =
        .ok (es.foldl (fun acc e => if e.1 = "text".data then acc ++ e.2 else acc) [])) := by
  refine ⟨rfl, rfl, rfl, rfl, rfl, fun es hdec hsend => ?_⟩
  rw [mcpWrapperExecute, mcpCallTool]
  dsimp only [newMCPToolWrapper]
  rw [hsend]
  have hlk : jlookup [("content".data, .jarr entries)] ("content".data) =
      some (.jarr entries) := by
    rw [jlookup]
    simp
  dsimp only
  rw [hlk]
  dsimp only
  rw [hdec]

/-- A transport whose every answer is a three-entry content array with two
text entries `ab` and `cd` around an image entry. -/
def mcpTextTransport : MCPRequest → Except (List Char) JValue := fun _ =>
  .ok (.jobj [("content".data, .jarr
    [.jobj [("type".data, .jstr ("text".data)), ("text".data, .jstr ("ab".data))],
     .jobj [("type".data, .jstr ("image".data)), ("text".data, .jstr ("ZZ".data))],
     .jobj [("type".data, .jstr ("text".data)), ("text".data, .jstr ("cd".data))]])])

/-- C6 witness: server `s`, tool `foo`: the wrapper is registered as
`mcp_s_foo` and its result concatenates the text entries `ab` and `cd`. -/
theorem mcp_wrapper_call_witness :
    (newMCPToolWrapper ("s".data) ⟨"foo".data, [], []⟩).fullName = "mcp_s_foo".data ∧
    mcpWrapperExecute mcpTextTransport 1
      (newMCPToolWrapper ("s".data) ⟨"foo".data, [], []⟩) [] = .ok ("abcd".data) := by
  have h := mcp_wrapper_prefix_and_call ("s".data) ⟨"foo".data, [], []⟩
    mcpTextTransport 1 []
    [.jobj [("type".data, .jstr ("text".data)), ("text".data, .jstr ("ab".data))],
     .jobj [("type".data, .jstr ("image".data)), ("text".data, .jstr ("ZZ".data))],
     .jobj [("type".data, .jstr ("text".data)), ("text".data, .jstr ("cd".data))]]
  exact ⟨h.1, h.2.2.2.2.2 [("text".data, "ab".data), ("image".data, "ZZ".data),
    ("text".data, "cd".data)] rfl rfl⟩

/-- C6 counterexample: the local name for server `s`, tool `foo` is
`mcp_s_foo`, which is not the `ext_s_foo` the claim (and spec) state. -/
theorem mcp_prefix_not_ext :
    (newMCPToolWrapper ("s".data) ⟨"foo".data, [], []⟩).fullName = "mcp_s_foo".data ∧
    (newMCPToolWrapper ("s".data) ⟨"foo".data, [], []⟩).fullName ≠ "ext_s_foo".data :=
  ⟨rfl, by decide⟩

theorem detect_supportsTools (chat : ChatRequest → Except (List Char) ChatResponse)
    (m : String) :
    (detectCapabilities chat m).supportsTools = testNativeTools chat m := by
  cases hn : testNativeTools chat m <;> cases hx : testXMLFormat chat m <;>
    cases hj : testJSONFormat chat m <;> simp [detectCapabilities, hn, hx, hj]

/-- C7: the detector reports `supportsTools = true` with the native format
exactly when the native probe returns a response carrying at least one
structured tool call; otherwise the tagged-XML probe, then the fenced-JSON
probe, are consulted in that order and the first success is reported with
`supportsTools = false`; and when everything fails it falls back to
`"text"`. A transport error on any probe counts as that probe failing. -/
theorem detector_order_and_default
    (chat : ChatRequest → Except (List Char) ChatResponse) (m : String) :
    (detectCapabilities chat m = ⟨true, "native", 0, []⟩ ↔
      ∃ r, chat (nativeProbeReq m) = .ok r ∧ r.message.toolCalls ≠ []) ∧
    (testNativeTools chat m = false → testXMLFormat chat m = true →
      detectCapabilities chat m = ⟨false, "xml", 0, []⟩) ∧
    (testNativeTools chat m = false → testXMLFormat chat m = false →
      testJSONFormat chat m = true →
      detectCapabilities chat m = ⟨false, "json", 0, []⟩) ∧
    (testNativeTools chat m = false → testXMLFormat chat m = false →
      testJSONFormat chat m = false →
      detectCapabilities chat m = ⟨false, "text", 0, []⟩) ∧
    (∀ e, chat (nativeProbeReq m) = .error e → testNativeTools chat m = false) ∧
    (∀ e, chat (xmlProbeReq m) = .error e → testXMLFormat chat m = false) ∧
    (∀ e, chat (jsonProbeReq m) = .error e → testJSONFormat chat m = false) := by
  refine ⟨⟨?_, ?_⟩, ?_, ?_, ?_, ?_, ?_, ?_⟩
  · intro h
    have hs : testNativeTools chat m = true := by
      rw [← detect_supportsTools, h]
    revert hs
    rw [testNativeTools]
    cases hc : chat (nativeProbeReq m) with
    | error e => intro hs; cases hs
    | ok r =>
      intro hs
      exact ⟨r, rfl, List.ne_nil_of_length_pos (of_decide_eq_true hs)⟩
  · rintro ⟨r, hc, hne⟩
    have hs : testNativeTools chat m = true := by
      rw [testNativeTools, hc]
      simpa [List.length_pos] using hne
    simp [detectCapabilities, hs]
  · intro h1 h2; simp [detectCapabilities, h1, h2]
  · intro h1 h2 h3; simp [detectCapabilities, h1, h2, h3]
  · intro h1 h2 h3; simp [detectCapabilities, h1, h2, h3]
  · intro e hc; rw [testNativeTools, hc]
  · intro e hc; rw [testXMLFormat, hc]
  · intro e hc; rw [testJSONFormat, hc]

/-- A backend that answers the (tool-bearing) native probe with one
structured tool call and errors on everything else. -/
def nativeOnlyClient : ChatRequest → Except (List Char) ChatResponse := fun r =>
  if r.tools.length > 0 then .ok ⟨⟨"assistant", [], [], [⟨"t".data, []⟩]⟩, []⟩
  else .error []

/-- C7 witness: `nativeOnlyClient` is detected as native with tool support;
a backend that always errors falls through to the `"text"` default. -/
theorem detector_order_witness :
    detectCapabilities nativeOnlyClient "m" = ⟨true, "native", 0, []⟩ ∧
    detectCapabilities (fun _ => .error []) "m" = ⟨false, "text", 0, []⟩ := by
  have h1 := detector_order_and_default nativeOnlyClient "m"
  have h2 := detector_order_and_default (fun _ => .error []) "m"
  exact ⟨h1.1.mpr ⟨⟨⟨"assistant", [], [], [⟨"t".data, []⟩]⟩, []⟩, rfl, by simp⟩,
    h2.2.2.2.1 rfl rfl rfl⟩

/-- C8 (amended): with `RestrictToWorkingDir` set, a call whose extracted
target path resolves to a relative form whose rendering starts with the two
characters `..` is denied with the `outside working directory` error before
anything else runs (the wrapped tool is not invoked); when the relative
form does not start with `..`, the working-directory check passes. The
claim's reading — denial exactly for paths resolving outside — is wrong:
the code tests `strings.HasPrefix(rel, "..")`, which also fires for a
sibling-named entry inside the working directory such as `..foo`. -/
theorem gate_workingdir_restriction (tool : GoTool) (level : PermissionLevel)
    (checker : Option (String → PermissionLevel → Except (List Char) Bool))
    (cfg : PermissionConfig) (wd : List (List Char))
    (args : List (List Char × JValue))
    (hres : cfg.restrictToWorkingDir = true) :
    (gateTargetPath args ≠ [] →
      relHasDotDotPrefix (relComps wd (absPathComps wd (gateTargetPath args))) = true →
      protectedExecute tool level checker cfg wd args =
        ⟨.error ("access denied: path '".data ++ gateTargetPath args ++
          "' is outside working directory '".data ++ ('/' :: joinSlash wd) ++
          "'".data), false⟩) ∧
    (relHasDotDotPrefix (relComps wd (absPathComps wd (gateTargetPath args))) = false →
      checkWorkingDirRestriction wd (gateTargetPath args) = none) := by
  constructor
  · intro hne hdot
    have hwd : gateWdErr cfg wd args =
        some ("access denied: path '".data ++ gateTargetPath args ++
          "' is outside working directory '".data ++ ('/' :: joinSlash wd) ++
          "'".data) := by
      rw [gateWdErr, hres]
      rw [if_pos (by simp [hne])]
      rw [checkWorkingDirRestriction, if_neg hne, if_pos hdot]
    rw [protectedExecute.eq_def, hwd]
  · intro hdot
    rw [checkWorkingDirRestriction]
    by_cases hne : gateTargetPath args = []
    · rw [if_pos hne]
    · rw [if_neg hne, if_neg (by rw [hdot]; exact Bool.false_ne_true)]

/-- C8 counterexample: relative to the working directory `/w`, the target
`..foo` resolves to `/w/..foo` — a direct child of the working directory —
and its relative form is the single component `..foo`; yet the check denies
it, because the rendered relative path starts with the characters `..`. -/
theorem workingdir_dotdot_name_denied :
    absPathComps [['w']] ("..foo".data) = [['w'], "..foo".data] ∧
    relComps [['w']] (absPathComps [['w']] ("..foo".data)) = ["..foo".data] ∧
    (checkWorkingDirRestriction [['w']] ("..foo".data)).isSome = true :=
  ⟨rfl, rfl, rfl⟩

/-- C8 witness: under restriction to `/w`, a read of `/x/secret` is denied
with the tool never invoked, and `sub/f.txt` passes the check. -/
theorem gate_workingdir_witness :
    protectedExecute ⟨"read_file", fun _ => .ok ("x".data)⟩ .read none
      { defaultPermissionConfig with restrictToWorkingDir := true } [['w']]
      [("path".data, .jstr ("/x/secret".data))] =
      ⟨.error ("access denied: path '/x/secret' is outside working directory '/w'".data),
        false⟩ ∧
    checkWorkingDirRestriction [['w']] ("sub/f.txt".data) = none := by
  have h1 := gate_workingdir_restriction ⟨"read_file", fun _ => .ok ("x".data)⟩ .read
    none { defaultPermissionConfig with restrictToWorkingDir := true } [['w']]
    [("path".data, .jstr ("/x/secret".data))] rfl
  have h2 := gate_workingdir_restriction ⟨"read_file", fun _ => .ok ("x".data)⟩ .read
    none { defaultPermissionConfig with restrictToWorkingDir := true } [['w']]
    [("path".data, .jstr ("sub/f.txt".data))] rfl
  exact ⟨h1.1 (by decide) rfl, h2.2 rfl⟩

theorem natRepr_42 : natRepr 42 = ['4', '2'] := by
  rw [natRepr, if_neg (by decide)]
  rw [show (42 : Nat) / 10 = 4 from rfl, show (42 : Nat) % 10 = 2 from rfl]
  rw [natRepr, if_pos (by decide)]
  rfl

theorem intRepr_42 : intRepr 42 = ['4', '2'] := by
  rw [intRepr, if_neg (by decide)]
  exact natRepr_42

theorem customExecute_runs_built (sh : List Char → List Char × Option (List Char))
    (t : CustomCommandTool) (args : List (List Char × JValue)) (cmdv : List Char)
    (hb : buildCommand args t.params t.command = .ok cmdv) :
    (customCommandExecute sh t args).2 = some cmdv := by
  rw [customCommandExecute.eq_def, hb]
  dsimp only
  rcases hsh : sh cmdv with ⟨out, err⟩
  cases err <;> rfl

/-- The custom tool of the claim's example: template
`echo \x7b\x7ba\x7d\x7d \x7b\x7bb\x7d\x7d` with required params `a`, `b`. -/
def echoTool : CustomCommandTool :=
  ⟨"e".data, [], "echo \x7b\x7ba\x7d\x7d \x7b\x7bb\x7d\x7d".data,
   [⟨"a".data, "string", [], true⟩, ⟨"b".data, "number", [], true⟩]⟩

def echoArgs : List (List Char × JValue) :=
  [("a".data, .jstr ("x".data)), ("b".data, .jnum 42)]

/-- C9: `CustomCommandTool.Execute` substitutes every placeholder
occurrence with the argument's string form and hands exactly the built
command to the shell; a missing required parameter aborts with the
`missing required parameter` error and no subprocess; and the claim's own
example — template `echo \x7b\x7ba\x7d\x7d \x7b\x7bb\x7d\x7d` with
`a = "x"`, `b = 42` — runs exactly `echo x 42`. -/
theorem custom_command_substitution (sh : List Char → List Char × Option (List Char))
    (t : CustomCommandTool) (args : List (List Char × JValue))
    (p : CommandParam) (ps : List CommandParam) (cmdv : List Char) :
    ((customCommandExecute sh echoTool echoArgs).2 = some ("echo x 42".data)) ∧
    (jlookup args p.name = none → p.required = true → t.params = p :: ps →
      customCommandExecute sh t args =
        (.error ("missing required parameter: ".data ++ p.name), none)) ∧
    (buildCommand args t.params t.command = .ok cmdv →
      (customCommandExecute sh t args).2 = some cmdv) ∧
    (∀ v, jlookup args p.name = some v → t.params = [p] →
      buildCommand args t.params t.command =
        .ok (goReplaceAll t.command ("\x7b\x7b".data ++ p.name ++ "\x7d\x7d".data)
          (paramValueStr v))) := by
  refine ⟨?_, ?_, ?_, ?_⟩
  · have hv : paramValueStr (.jnum 42) = ['4', '2'] := intRepr_42
    have h1 : buildCommand echoArgs echoTool.params echoTool.command =
        buildCommand echoArgs [⟨"b".data, "number", [], true⟩]
          ("echo x \x7b\x7bb\x7d\x7d".data) := rfl
    have h2 : buildCommand echoArgs [⟨"b".data, "number", [], true⟩]
        ("echo x \x7b\x7bb\x7d\x7d".data) = .ok ("echo x 42".data) := by
      rw [buildCommand]
      rw [show jlookup echoArgs ("b".data) = some (.jnum 42) from rfl]
      dsimp only
      rw [hv]
      rfl
    exact customExecute_runs_built sh echoTool echoArgs _ (h1.trans h2)
  · intro h1 h2 h3
    rw [customCommandExecute.eq_def, h3, buildCommand, h1]
    dsimp only
    rw [if_pos h2]
  · exact customExecute_runs_built sh t args cmdv
  · intro v h1 h2
    rw [h2, buildCommand, h1]
    dsimp only
    rfl

def echoShell : List Char → List Char × Option (List Char) := fun c => (c, none)

def missingParamTool : CustomCommandTool :=
  ⟨"m".data, [], "do \x7b\x7bq\x7d\x7d".data, [⟨"q".data, "string", [], true⟩]⟩

/-- C9 witness: the example command is exactly `echo x 42`, and a tool
with required `q` invoked with no arguments fails without running. -/
theorem custom_command_substitution_witness :
    (customCommandExecute echoShell echoTool echoArgs).2 = some ("echo x 42".data) ∧
    customCommandExecute echoShell missingParamTool [] =
      (.error ("missing required parameter: q".data), none) := by
  have h := custom_command_substitution echoShell missingParamTool []
    ⟨"q".data, "string", [], true⟩ [] ("echo x 42".data)
  exact ⟨h.1, h.2.1 rfl rfl rfl⟩

/-- C10: when a `command` string is present and an executor is configured,
`BashTool.Execute` returns `ok` even when the subprocess reports a Go-level
error: the exit code and error text are embedded in the output string. The
agent therefore records the failure as an ordinary tool-role message, not
as an `Error executing tool` message. -/
theorem bash_failure_returns_ok
    (ex : List Char → List Char × Int × Option (List Char))
    (args : List (List Char × JValue)) (cmd output e : List Char) (code : Int)
    (hcmd : jlookup args ("command".data) = some (.jstr cmd))
    (hrun : ex cmd = (output, code, some e)) :
    bashExecute (some ex) args =
      .ok (output ++ "\n\nExit code: ".data ++ intRepr code ++
        "\nError: ".data ++ e) ∧
    ∀ (msgs : List OMessage) (nm : List Char),
      execCalls (fun _ a => bashExecute (some ex) a) [⟨nm, args⟩] msgs =
        msgs ++ [⟨"tool",
          output ++ "\n\nExit code: ".data ++ intRepr code ++ "\nError: ".data ++ e,
          nm, []⟩] := by
  have h1 : bashExecute (some ex) args =
      .ok (output ++ "\n\nExit code: ".data ++ intRepr code ++
        "\nError: ".data ++ e) := by
    rw [bashExecute.eq_def, hcmd]
    dsimp only
    rw [hrun]
  refine ⟨h1, fun msgs nm => ?_⟩
  simp only [execCalls, List.foldl_cons, List.foldl_nil]
  rw [h1]

def failingExecutor : List Char → List Char × Int × Option (List Char) :=
  fun _ => ("out".data, 2, some ("exit status 2".data))

/-- C10 witness: a command whose subprocess exits 2 with error text
`exit status 2` still yields an `ok` result embedding both, and the agent
message for it is an ordinary tool-role message. -/
theorem bash_failure_returns_ok_witness :
    bashExecute (some failingExecutor) [("command".data, .jstr ("false".data))] =
      .ok ("out".data ++ "\n\nExit code: ".data ++ intRepr 2 ++
        "\nError: ".data ++ "exit status 2".data) ∧
    execCalls (fun _ a => bashExecute (some failingExecutor) a)
      [⟨"run_command".data, [("command".data, .jstr ("false".data))]⟩] [] =
      [⟨"tool",
        "out".data ++ "\n\nExit code: ".data ++ intRepr 2 ++
          "\nError: ".data ++ "exit status 2".data,
        "run_command".data, []⟩] := by
  have h := bash_failure_returns_ok failingExecutor
    [("command".data, .jstr ("false".data))] ("false".data) ("out".data)
    ("exit status 2".data) 2 rfl rfl
  exact ⟨h.1, h.2 [] ("run_command".data)⟩

end Llemecode
